import Mathlib

/-!
Verification development for the dbsample / pg_sample repository: a shallow
embedding of the dependency resolver (dbsample/dependencies.py), the sampling
engine (pg_sample/sampling.py), and the staging manager with its caller
(dbsample/staging.py, dbsample/cli.py), together with theorems settling the
frozen claims about them.

Modelling conventions:
* a database cell is an `Option Nat` (`none` = SQL NULL), a row is a list of
  cells in the table's column order;
* Python dicts are association lists with insert-or-replace-in-place update,
  preserving insertion order exactly as CPython does;
* Python sets of strings or tuples are kept as insertion-ordered duplicate-free
  lists where only membership matters; where the code iterates such a set and
  the iteration order is observable (the leftover tables appended after Kahn's
  algorithm), the order is taken as an explicit enumeration parameter, because
  CPython's set iteration order for strings depends on the per-process hash
  seed and is not specified;
* the PostgreSQL server and the psycopg driver are modelled by `SourceDB` and
  `execute`: a query is evaluated against the stored rows of its FROM table;
  psycopg rejects a parameter list whose length differs from the number of
  placeholders in the query, which `execute` reproduces;
* recursion that Python performs with unbounded loops is embedded with a fuel
  parameter that is large enough for the loop to run to completion; safety
  theorems are proved for every fuel value and instantiated at the canonical
  one.
-/

namespace DbSample

/-- A database cell: `none` models SQL NULL. -/
abbrev Value := Option Nat

/-- A row is the list of cell values in the table's column order. -/
abbrev Row := List Value

/-- Qualified table name, `schema.table`. -/
abbrev QName := String

/-! ### Python dict and set models -/

/-- Lookup in an insertion-ordered association list (Python dict access). -/
def dictFind? {α : Type} (d : List (QName × α)) (k : QName) : Option α :=
  (d.find? (fun p => p.1 = k)).map (fun p => p.2)

/-- Python dict update: replace the value in place when the key is present,
append otherwise (CPython keeps the original position of an updated key). -/
def dictInsert {α : Type} (d : List (QName × α)) (k : QName) (v : α) :
    List (QName × α) :=
  if d.any (fun p => p.1 = k) then
    d.map (fun p => if p.1 = k then (k, v) else p)
  else
    d ++ [(k, v)]

/-- Python `set.add` on an insertion-ordered duplicate-free list. -/
def listAddSet {α : Type} [DecidableEq α] (s : List α) (x : α) : List α :=
  if x ∈ s then s else s ++ [x]

/-! ### Pattern matching

Two distinct matchers appear in sampling.py.  Limit-rule patterns are compiled
with `re.escape(pattern).replace("\\*", ".*")` under `re.IGNORECASE` and
anchored, so only `*` is a wildcard and matching is case-insensitive.  Column
and table exclusion use `fnmatch.fnmatch`, which on POSIX is case-sensitive;
its `*` and `?` wildcards are modelled (character classes, which no pattern in
this development uses, are treated as literal characters). -/

/-- Core glob matcher on character lists: `*` matches any sequence, `?` (when
enabled) matches a single character, anything else is literal.  The fuel is
structural so that the function evaluates inside the kernel; every step
shrinks the combined length of pattern and text, so
`pattern.length + text.length + 1` always suffices. -/
def globChars (qmark : Bool) : Nat → List Char → List Char → Bool
  | 0, _, _ => false
  | _ + 1, [], [] => true
  | _ + 1, [], _ :: _ => false
  | fuel + 1, c :: ps, [] => c = '*' && globChars qmark fuel ps []
  | fuel + 1, c :: ps, d :: ts =>
    if c = '*' then
      globChars qmark fuel ps (d :: ts) || globChars qmark fuel (c :: ps) ts
    else ((c = d) || (qmark && c = '?')) && globChars qmark fuel ps ts

/-- Matcher for limit-rule patterns: `*` only, case-insensitive
(`re.escape` + `.*` + `re.IGNORECASE`, anchored). -/
def rule_matches (pattern text : String) : Bool :=
  let p := pattern.toList.map Char.toLower
  let t := text.toList.map Char.toLower
  globChars false (p.length + t.length + 1) p t

/-- Model of `fnmatch.fnmatch(text, pattern)` as used for exclusions. -/
def fnmatch (text pattern : String) : Bool :=
  let p := pattern.toList
  let t := text.toList
  globChars true (p.length + t.length + 1) p t

/-- Decidable equality of driver results. -/
instance {ε α : Type} [DecidableEq ε] [DecidableEq α] :
    DecidableEq (Except ε α) := fun x y =>
  match x, y with
  | Except.ok a, Except.ok b =>
    if h : a = b then isTrue (by rw [h])
    else isFalse (fun he => h (Except.ok.inj he))
  | Except.error a, Except.error b =>
    if h : a = b then isTrue (by rw [h])
    else isFalse (fun he => h (Except.error.inj he))
  | Except.ok _, Except.error _ => isFalse (fun he => Except.noConfusion he)
  | Except.error _, Except.ok _ => isFalse (fun he => Except.noConfusion he)

/-- Lexicographic strict order on character lists (Python `str <` on code
points). -/
def chars_lt : List Char → List Char → Bool
  | [], [] => false
  | [], _ :: _ => true
  | _ :: _, [] => false
  | a :: as, b :: bs =>
    if a < b then true else if b < a then false else chars_lt as bs

/-- Python `a < b` on strings. -/
def str_lt (a b : String) : Bool := chars_lt a.toList b.toList

/-- Python `a <= b` on strings. -/
def str_le (a b : String) : Bool := str_lt a b || a = b

/-- Python `pattern.rsplit(".", 1)`: split at the last dot (callers only use
it on strings that contain a dot). -/
def rsplitDot (s : String) : String × String :=
  let r := s.toList.reverse
  let afterR := r.takeWhile (fun c => c ≠ '.')
  if afterR.length = r.length then ("", s)
  else
    (String.mk ((r.drop (afterR.length + 1)).reverse),
     String.mk afterR.reverse)

/-! ### Schema data model (dbsample/schema.py) -/

/-- Column metadata; only the name participates in the sampling logic. -/
structure Column where
  name : String
deriving Repr, DecidableEq

/-- Foreign key constraint information (class ForeignKey). -/
structure ForeignKey where
  name : String
  table_schema : String
  table_name : String
  columns : List String
  referenced_schema : String
  referenced_table : String
  referenced_columns : List String
deriving Repr, DecidableEq

/-- Table metadata (class Table); `primary_key = []` models the absent key. -/
structure Table where
  schema : String
  name : String
  columns : List Column
  primary_key : List String
  foreign_keys : List ForeignKey
deriving Repr, DecidableEq

/-- Property `Table.qualified_name`. -/
def Table.qualified_name (t : Table) : QName :=
  t.schema ++ "." ++ t.name

/-- Property `Table.has_primary_key`. -/
def Table.has_primary_key (t : Table) : Bool :=
  !t.primary_key.isEmpty

/-- Qualified name of the table referenced by a foreign key, as the code
forms it: `f"FK.referenced_schema.FK.referenced_table"` with a dot. -/
def refQName (fk : ForeignKey) : QName :=
  fk.referenced_schema ++ "." ++ fk.referenced_table

/-! ### Row projections -/

/-- Python `[i for i, col in enumerate(columns) if col.name in names]`. -/
def indices_matching (cols : List Column) (names : List String) : List Nat :=
  (List.range cols.length).filter (fun i =>
    match cols.get? i with
    | some c => names.contains c.name
    | none => false)

/-- Python `tuple(row[i] for i in idxs)`; out-of-range reads yield NULL
(they do not occur on well-formed inputs). -/
def proj_at (r : Row) (idxs : List Nat) : Row :=
  idxs.map (fun i => (r.get? i).getD none)

/-- Value of a row at the position of each named column, in the order the
names are listed (SQL column reference resolution). -/
def proj_by_names (cols : List Column) (names : List String) (r : Row) : Row :=
  names.map (fun n =>
    match cols.findIdx? (fun c => c.name = n) with
    | some i => (r.get? i).getD none
    | none => none)

/-- Indices of a table's primary-key columns in column order
(`[i for i, col in enumerate(columns) if col.name in primary_key]`). -/
def pk_indices (t : Table) : List Nat :=
  indices_matching t.columns t.primary_key

/-- Primary-key column names listed in column order. -/
def pk_names_in_order (t : Table) : List String :=
  (pk_indices t).map (fun i =>
    match t.columns.get? i with
    | some c => c.name
    | none => "")

/-! ### Dependency resolver (dbsample/dependencies.py)

`DependencyResolver.__init__` stores the tables as a dict keyed by qualified
name and builds the forward and reverse dependency graphs from the foreign
keys.  The graphs are `defaultdict(set)`; each adjacency set is modelled as an
insertion-ordered duplicate-free list. -/

/-- Adjacency of a node in a `defaultdict(set)` graph (empty if absent). -/
def adjOf (g : List (QName × List QName)) (n : QName) : List QName :=
  (dictFind? g n).getD []

/-- Record one edge `a → b` in a `defaultdict(set)` graph. -/
def addEdge (g : List (QName × List QName)) (a b : QName) :
    List (QName × List QName) :=
  dictInsert g a (listAddSet (adjOf g a) b)

/-- State of `DependencyResolver`: the table dict and both derived graphs. -/
structure DependencyResolver where
  tables : List (QName × Table)
  dep_graph : List (QName × List QName)
  rev_graph : List (QName × List QName)
deriving Repr

/-- Method `_build_graph`: for every table and foreign key whose referenced
table is known, add the forward and reverse edges. -/
def build_graphs (tables : List (QName × Table)) :
    List (QName × List QName) × List (QName × List QName) :=
  tables.foldl
    (fun gs p =>
      p.2.foreign_keys.foldl
        (fun (gs : List (QName × List QName) × List (QName × List QName)) fk =>
          let ref_table := refQName fk
          if (dictFind? tables ref_table).isSome then
            (addEdge gs.1 p.2.qualified_name ref_table,
             addEdge gs.2 ref_table p.2.qualified_name)
          else gs)
        gs)
    ([], [])

/-- The dict `{t.qualified_name: t for t in tables}` built by both
`DependencyResolver.__init__` and `SamplingEngine.__init__`. -/
def mk_tables_dict (tables : List Table) : List (QName × Table) :=
  tables.foldl (fun d t => dictInsert d t.qualified_name t) []

/-- Constructor `DependencyResolver(tables)`. -/
def mk_resolver (tables : List Table) : DependencyResolver :=
  let tdict := mk_tables_dict tables
  let gs := build_graphs tdict
  ⟨tdict, gs.1, gs.2⟩

/-- Decrement the in-degree entry of one key (`in_degree[dependent] -= 1`;
a missing key, which cannot occur for graphs built by `_build_graph`, is left
unchanged). -/
def decKey (deg : List (QName × Int)) (k : QName) : List (QName × Int) :=
  deg.map (fun p => if p.1 = k then (p.1, p.2 - 1) else p)

/-- Loop body of Kahn's algorithm in `get_insertion_order`: pop the queue
head, append it to the result, decrement the in-degree of every reverse
neighbour and enqueue those that reach zero.  The fuel bounds the number of
pops; each key enters the queue at most once, so `in_degree.length` pops
always suffice for the loop to drain the queue. -/
def kahn_loop (rev : List (QName × List QName)) :
    Nat → List QName → List (QName × Int) → List QName → List QName
  | 0, _, _, result => result
  | _ + 1, [], _, result => result
  | fuel + 1, n :: queue, deg, result =>
    let result := result ++ [n]
    let step := (adjOf rev n).foldl
      (fun (p : List (QName × Int) × List QName) dependent =>
        let deg := decKey p.1 dependent
        if dictFind? deg dependent = some 0 then (deg, p.2 ++ [dependent])
        else (deg, p.2))
      (deg, queue)
    kahn_loop rev fuel step.2 step.1 result

/-- Initial in-degree dict of `get_insertion_order`: the length of each
forward adjacency set, then every table not yet present with degree 0. -/
def initial_in_degree (r : DependencyResolver) : List (QName × Int) :=
  let deg := r.dep_graph.map (fun p => (p.1, (p.2.length : Int)))
  r.tables.foldl
    (fun d p => if (dictFind? d p.1).isSome then d else d ++ [(p.1, 0)])
    deg

/-- The part of `get_insertion_order` emitted by Kahn's algorithm proper. -/
def kahn_emitted (r : DependencyResolver) : List QName :=
  let deg := initial_in_degree r
  let queue := (deg.filter (fun p => p.2 = 0)).map Prod.fst
  kahn_loop r.rev_graph deg.length queue deg []

/-- The set `set(self.tables.keys()) - set(result)` of tables left over after
Kahn's algorithm, enumerated here in table-dict order; the order in which the
code iterates this Python set is supplied separately. -/
def insertion_remaining (r : DependencyResolver) : List QName :=
  (r.tables.map Prod.fst).filter (fun n => !(kahn_emitted r).contains n)

/-- Method `get_insertion_order`: the Kahn output followed by the leftover
set.  `set_order` is the enumeration order in which CPython iterates the
leftover set when `result.extend(remaining)` runs; it depends on the process
hash seed and is not specified, so it is a parameter of the model. -/
def get_insertion_order (r : DependencyResolver)
    (set_order : List QName → List QName) : List QName :=
  kahn_emitted r ++ set_order (insertion_remaining r)

/-- Method `get_dependent_tables` and `get_dependencies` share this BFS:
pop the queue; skip visited nodes; otherwise mark visited and add every
unvisited neighbour to both the accumulator set and the queue.  The fuel
dominates the number of pops (at most one initial element plus the total
size of all adjacency sets). -/
def bfs_closure (g : List (QName × List QName)) :
    Nat → List QName → List QName → List QName → List QName
  | 0, _, _, acc => acc
  | _ + 1, [], _, acc => acc
  | fuel + 1, current :: queue, visited, acc =>
    if current ∈ visited then bfs_closure g fuel queue visited acc
    else
      let visited := visited ++ [current]
      let fresh := (adjOf g current).filter (fun d => !visited.contains d)
      bfs_closure g fuel (queue ++ fresh)
        visited (fresh.foldl listAddSet acc)

/-- Fuel that lets `bfs_closure` run its queue dry: one initial pop plus one
pop for every possible enqueue. -/
def bfs_fuel (g : List (QName × List QName)) : Nat :=
  2 + (g.map (fun p => p.2.length)).sum

/-- Method `get_dependencies`: transitive closure along the forward graph. -/
def get_dependencies (r : DependencyResolver) (table_name : QName) :
    List QName :=
  bfs_closure r.dep_graph (bfs_fuel r.dep_graph) [table_name] [] []

/-- Method `get_dependent_tables`: transitive closure along the reverse
graph. -/
def get_dependent_tables (r : DependencyResolver) (table_name : QName) :
    List QName :=
  bfs_closure r.rev_graph (bfs_fuel r.rev_graph) [table_name] [] []

/-- Index of the lexicographically smallest element
(`min(range(len(cycle)), key=lambda i: cycle[i])`, first minimum wins). -/
def idx_of_min (l : List String) : Nat :=
  (List.range l.length).foldl
    (fun best i => if str_lt (l.getD i "") (l.getD best "") then i else best)
    0

/-- Inner recursion `find_cycle(start, path)` of `get_circular_groups`: the
first component of the result is the cycle found (empty if none), the second
the updated shared `visited` set.  The neighbour loop stops exploring once a
cycle has been found, exactly as the early `return` does. -/
def find_cycle (g : List (QName × List QName)) :
    Nat → QName → List QName → List QName → List QName × List QName
  | 0, _, _, visited => ([], visited)
  | fuel + 1, start, path, visited =>
    if start ∈ path then (path.drop (path.indexOf start), visited)
    else if start ∈ visited then ([], visited)
    else
      let visited := visited ++ [start]
      let path := path ++ [start]
      (adjOf g start).foldl
        (fun (acc : List QName × List QName) neighbor =>
          if acc.1 ≠ [] then acc
          else find_cycle g fuel neighbor path acc.2)
        ([], visited)

/-- Method `get_circular_groups`: run `find_cycle` from every unvisited
table; normalise each cycle to start at its lexicographically smallest
member. -/
def get_circular_groups (r : DependencyResolver) : List (List QName) :=
  (r.tables.foldl
    (fun (acc : List (List QName) × List QName) p =>
      if p.1 ∈ acc.2 then acc
      else
        let res := find_cycle r.dep_graph (r.tables.length + 1) p.1 [] acc.2
        if res.1 = [] then (acc.1, res.2)
        else
          let start_idx := idx_of_min res.1
          (acc.1 ++ [res.1.drop start_idx ++ res.1.take start_idx], res.2))
    ([], [])).1

/-- Two tables lie in a common group returned by `get_circular_groups`. -/
def same_cycle_group (r : DependencyResolver) (a b : QName) : Bool :=
  (get_circular_groups r).any (fun g => g.contains a && g.contains b)

/-! ### Limit rules (pg_sample/sampling.py) -/

/-- Enum `LimitType`. -/
inductive LimitType where
  | numeric
  | percentage
  | full
  | conditional
deriving Repr, DecidableEq

/-- The dynamically typed `LimitRule.value`: an int for NUMERIC, a float
(modelled as an exact rational) for PERCENTAGE, a SQL fragment for
CONDITIONAL and `None` for FULL. -/
inductive RuleValue where
  | vint (n : Int)
  | vrat (q : ℚ)
  | vstr (s : String)
  | vnone
deriving Repr, DecidableEq

/-- The int stored in a NUMERIC rule. -/
def RuleValue.toInt : RuleValue → Int
  | .vint n => n
  | _ => 0

/-- The number stored in a PERCENTAGE rule. -/
def RuleValue.toRat : RuleValue → ℚ
  | .vrat q => q
  | .vint n => (n : ℚ)
  | _ => 0

/-- The SQL fragment stored in a CONDITIONAL rule. -/
def RuleValue.toStr : RuleValue → String
  | .vstr s => s
  | _ => ""

/-- Dataclass `LimitRule`; the compiled regex is recomputed from the textual
pattern by `rule_matches`. -/
structure LimitRule where
  pattern : String
  limit_type : LimitType
  value : RuleValue
deriving Repr, DecidableEq

/-! ### Query model

`_build_query` assembles a SQL string and a parameter list.  The string is
kept structured: its SELECT list, FROM table, inlined WHERE fragment, ORDER
BY clause and LIMIT clause.  `LimitClause.placeholder` stands for the text
`LIMIT %s` (one `%s` placeholder), `LimitClause.literal n` for the literal
text `LIMIT n` (no placeholder). -/

/-- One entry of the SELECT list: the literal `NULL` or a quoted column. -/
inductive SelectExpr where
  | nullLit
  | col (name : String)
deriving Repr, DecidableEq

/-- The ORDER BY clause: primary-key columns, `ctid`, or `RANDOM()`. -/
inductive OrderBy where
  | byCols (cols : List String) (desc : Bool)
  | byCtid (desc : Bool)
  | byRandom
deriving Repr, DecidableEq

/-- The LIMIT clause, distinguishing a `%s` placeholder from literal text. -/
inductive LimitClause where
  | placeholder
  | literal (n : Nat)
deriving Repr, DecidableEq

/-- The structured content of the query string built by `_build_query`. -/
structure Query where
  select_list : List SelectExpr
  from_schema : String
  from_table : String
  where_sql : Option String
  order_by : Option OrderBy
  limit : Option LimitClause
deriving Repr, DecidableEq

/-- Number of `%s` placeholders in the query text. -/
def num_placeholders (q : Query) : Nat :=
  match q.limit with
  | some LimitClause.placeholder => 1
  | _ => 0

/-- The server and driver side of a sampling run: the live rows of every
source table, the truth value of every inlined SQL predicate on a row, and
the row order the server chooses for each ORDER BY clause (only constrained,
where a theorem needs it, to return rows of its input). -/
structure SourceDB where
  rows : QName → List Row
  cond : String → Row → Bool
  order_rows : OrderBy → List Row → List Row

/-- Evaluation of a row of the SELECT list against a source row, resolving
column names against the source table's column list. -/
def project_row (cols : List Column) (sel : List SelectExpr) (src : Row) :
    Row :=
  sel.map (fun e =>
    match e with
    | SelectExpr.nullLit => none
    | SelectExpr.col n =>
      match cols.findIdx? (fun c => c.name = n) with
      | some i => (src.get? i).getD none
      | none => none)

/-- Model of `cursor.execute(query, params)` followed by `fetchall()`:
psycopg refuses a parameter list whose length differs from the number of
placeholders; otherwise the server filters, orders, limits and projects the
stored rows of the FROM table. -/
def execute (db : SourceDB) (cols : List Column) (q : Query)
    (params : List Int) : Except String (List Row) :=
  if num_placeholders q ≠ params.length then
    Except.error "query placeholder count and parameter count differ"
  else
    let src := db.rows (q.from_schema ++ "." ++ q.from_table)
    let filtered :=
      match q.where_sql with
      | some c => src.filter (db.cond c)
      | none => src
    let ordered :=
      match q.order_by with
      | some ob => db.order_rows ob filtered
      | none => filtered
    let limited :=
      match q.limit, params with
      | some LimitClause.placeholder, [n] => ordered.take n.toNat
      | some (LimitClause.literal n), _ => ordered.take n
      | _, _ => ordered
    Except.ok (limited.map (project_row cols q.select_list))

/-! ### Sampling engine (class SamplingEngine) -/

/-- Constructor arguments of `SamplingEngine` that the sampling logic reads
(`self.tables` is the dict keyed by qualified name). -/
structure SamplingEngine where
  tables : List (QName × Table)
  resolver : DependencyResolver
  limit_rules : List LimitRule
  ordered : Bool
  ordered_desc : Bool
  random : Bool
  exclude_columns : List String
  use_staging : Bool
deriving Repr

/-- Dataclass `SamplingResult`. -/
structure SamplingResult where
  table_schema : String
  table_name : String
  rows : List Row
  row_count : Nat
  limit_applied : Option LimitRule
deriving Repr, DecidableEq

/-- Mutable engine state: `self.sampled_rows` (per-table presence set of
primary-key projections) and `self.results`. -/
structure EngineState where
  sampled_rows : List (QName × List Row)
  results : List (QName × SamplingResult)
deriving Repr, DecidableEq

/-- Method `_find_limit_rule`: first rule whose pattern matches the
qualified name, the bare name, or the text `schema.*`. -/
def find_limit_rule (e : SamplingEngine) (t : Table) : Option LimitRule :=
  let qualified := t.qualified_name
  let unqualified := t.name
  let schema_pattern := t.schema ++ ".*"
  e.limit_rules.find? (fun rule =>
    rule_matches rule.pattern qualified ||
    rule_matches rule.pattern unqualified ||
    rule_matches rule.pattern schema_pattern)

/-- Method `_get_excluded_columns`: names of the table's columns matched by
any exclusion pattern, in `table.column` or bare `column` form. -/
def get_excluded_columns (e : SamplingEngine) (t : Table) : List String :=
  let qualified := t.schema ++ "." ++ t.name
  e.exclude_columns.foldl
    (fun excluded pattern =>
      if pattern.toList.contains '.' then
        let tp := rsplitDot pattern
        if fnmatch qualified tp.1 || fnmatch t.name tp.1 then
          if fnmatch "*" tp.2 || tp.2 = "*" then
            t.columns.foldl (fun ex c => listAddSet ex c.name) excluded
          else
            t.columns.foldl
              (fun ex c =>
                if fnmatch c.name tp.2 then listAddSet ex c.name else ex)
              excluded
        else excluded
      else
        t.columns.foldl
          (fun ex c =>
            if fnmatch c.name pattern then listAddSet ex c.name else ex)
          excluded)
    []

/-- Method `_build_query`.  The SELECT list replaces each excluded column by
`NULL` in place and collapses to a single `NULL` only when the table has no
columns at all; a CONDITIONAL rule inlines its fragment as the WHERE clause;
ordering follows the `ordered` and `random` flags; the LIMIT clause and
parameter list follow the policy.  For PERCENTAGE the total is obtained with
`SELECT COUNT(*)` (here the length of the source rows) and the limit is
`max(1, int(total * value / 100))`; for no rule the text `LIMIT 100` is
emitted while `100` is nonetheless appended to the parameter list, exactly
as the code does. -/
def build_query (e : SamplingEngine) (db : SourceDB) (t : Table)
    (limit_rule : Option LimitRule) : Query × List Int :=
  let excluded := get_excluded_columns e t
  let column_exprs := t.columns.map (fun c =>
    if excluded.contains c.name then SelectExpr.nullLit
    else SelectExpr.col c.name)
  let column_exprs :=
    if column_exprs = [] then [SelectExpr.nullLit] else column_exprs
  let where_sql : Option String :=
    match limit_rule with
    | some r =>
      if r.limit_type = LimitType.conditional then some r.value.toStr
      else none
    | none => none
  let order_by : Option OrderBy :=
    if e.ordered then
      if t.has_primary_key then
        some (OrderBy.byCols t.primary_key e.ordered_desc)
      else some (OrderBy.byCtid e.ordered_desc)
    else if e.random then some OrderBy.byRandom
    else none
  let lim : Option LimitClause × List Int :=
    match limit_rule with
    | some r =>
      match r.limit_type with
      | LimitType.numeric => (some LimitClause.placeholder, [r.value.toInt])
      | LimitType.percentage =>
        let total : Nat := (db.rows t.qualified_name).length
        (some LimitClause.placeholder,
         [max 1 (((total : ℚ) * r.value.toRat / 100).floor)])
      | _ => (none, [])
    | none => (some (LimitClause.literal 100), [100])
  (⟨column_exprs, t.schema, t.name, where_sql, order_by, lim.1⟩, lim.2)

/-- Method `_sample_table`: build the query, execute it, wrap the fetched
rows in a `SamplingResult` whose `row_count` is `len(rows)`. -/
def sample_table (e : SamplingEngine) (db : SourceDB) (t : Table) :
    Except String SamplingResult :=
  let limit_rule := find_limit_rule e t
  let qp := build_query e db t limit_rule
  (execute db t.columns qp.1 qp.2).map (fun rows =>
    ⟨t.schema, t.name, rows, rows.length, limit_rule⟩)

/-- The rows currently sampled for a table (empty when absent). -/
def rowsOf (st : EngineState) (qn : QName) : List Row :=
  ((dictFind? st.results qn).map SamplingResult.rows).getD []

/-- The sampling loop of `_sample_direct`: walk the insertion order, sample
every known table, record the result and (when the table has a primary key)
the presence set of primary-key projections.  Any per-table failure aborts
the whole operation. -/
def sample_phase (e : SamplingEngine) (db : SourceDB)
    (insertion_order : List QName) : Except String EngineState :=
  insertion_order.foldlM
    (fun (st : EngineState) table_name =>
      match dictFind? e.tables table_name with
      | none => pure st
      | some table =>
        (sample_table e db table).map (fun result =>
          let results := dictInsert st.results table_name result
          let sampled :=
            if table.has_primary_key then
              dictInsert st.sampled_rows table_name
                (result.rows.foldl
                  (fun s row => listAddSet s (proj_at row (pk_indices table)))
                  [])
            else st.sampled_rows
          ⟨sampled, results⟩))
    ⟨[], []⟩

/-- Method `_fetch_missing_rows`: fetch the source rows of `table` whose
projection onto `columns` lies in `values`, create the table's result entry
if absent, append the fetched rows deduplicated by primary key, and extend
the presence set. -/
def fetch_missing_rows (db : SourceDB) (table : Table)
    (columns : List String) (values : List Row) (st : EngineState) :
    EngineState :=
  if values = [] then st
  else
    let qn := table.qualified_name
    let fetched := (db.rows qn).filter
      (fun row => decide (proj_by_names table.columns columns row ∈ values))
    let results0 :=
      if (dictFind? st.results qn).isSome then st.results
      else dictInsert st.results qn ⟨table.schema, table.name, [], 0, none⟩
    let cur := (dictFind? results0 qn).getD
      ⟨table.schema, table.name, [], 0, none⟩
    let pkIdx := pk_indices table
    let existing :=
      if table.has_primary_key then cur.rows.map (fun r => proj_at r pkIdx)
      else []
    let dedup := fetched.foldl
      (fun (acc : List Row × List Row) row =>
        if table.has_primary_key then
          let pv := proj_at row pkIdx
          if pv ∈ acc.2 then acc else (acc.1 ++ [row], acc.2 ++ [pv])
        else (acc.1 ++ [row], acc.2))
      ([], existing)
    let new_rows := dedup.1
    let results1 := dictInsert results0 qn
      { cur with
        rows := cur.rows ++ new_rows,
        row_count := cur.row_count + new_rows.length }
    let sampled1 :=
      if table.has_primary_key then
        dictInsert st.sampled_rows qn
          (new_rows.foldl (fun s r => listAddSet s (proj_at r pkIdx))
            ((dictFind? st.sampled_rows qn).getD []))
      else st.sampled_rows
    ⟨sampled1, results1⟩

/-- The non-null projections of the table's current rows onto the foreign
key's local columns, deduplicated in first-occurrence order
(`referenced_values` in `_resolve_foreign_keys`). -/
def fk_values_of (st : EngineState) (table_name : QName) (table : Table)
    (fk : ForeignKey) : List Row :=
  let idxs := indices_matching table.columns fk.columns
  (rowsOf st table_name).foldl
    (fun acc row =>
      let v := proj_at row idxs
      if none ∈ v then acc else listAddSet acc v)
    []

/-- One foreign key of `_resolve_foreign_keys`: skip unknown or
primary-key-less referenced tables, compute the missing referenced values
and fetch them. -/
def resolve_fk_step (e : SamplingEngine) (db : SourceDB)
    (table_name : QName) (table : Table) (fk : ForeignKey)
    (st : EngineState) : EngineState :=
  let ref_table := refQName fk
  match dictFind? e.tables ref_table with
  | none => st
  | some ref_table_obj =>
    if ref_table_obj.has_primary_key then
      let referenced_values := fk_values_of st table_name table fk
      let missing :=
        match dictFind? st.sampled_rows ref_table with
        | some s => referenced_values.filter (fun v => decide (v ∉ s))
        | none => referenced_values
      if missing ≠ [] then
        fetch_missing_rows db ref_table_obj fk.referenced_columns missing st
      else st
    else st

/-- One table of `_resolve_foreign_keys`: tables without a result entry are
skipped, otherwise every foreign key is processed in order. -/
def resolve_table_step (e : SamplingEngine) (db : SourceDB)
    (st : EngineState) (p : QName × Table) : EngineState :=
  if (dictFind? st.results p.1).isSome then
    p.2.foreign_keys.foldl
      (fun st fk => resolve_fk_step e db p.1 p.2 fk st) st
  else st

/-- Method `_resolve_foreign_keys`: a single pass over the table dict.  The
code performs no fixpoint iteration: rows fetched during the pass are only
re-examined if their table's dict entry has not been passed yet. -/
def resolve_foreign_keys (e : SamplingEngine) (db : SourceDB)
    (st : EngineState) : EngineState :=
  e.tables.foldl (resolve_table_step e db) st

/-- Method `_sample_direct`: initial sampling in insertion order, then the
single foreign-key resolution pass; returns `self.results`. -/
def sample_direct (e : SamplingEngine) (db : SourceDB)
    (set_order : List QName → List QName) :
    Except String (List (QName × SamplingResult)) :=
  (sample_phase e db (get_insertion_order e.resolver set_order)).map
    (fun st => (resolve_foreign_keys e db st).results)

/-- Method `_sample_with_staging`, reduced to what reaches `self.results`:
the third pass reads each table's rows back from the staging schema (here an
oracle `staging_data`) and records them with `row_count = len(rows)`. -/
def sample_with_staging (e : SamplingEngine)
    (staging_data : QName → List Row) (insertion_order : List QName) :
    List (QName × SamplingResult) :=
  insertion_order.foldl
    (fun results table_name =>
      match dictFind? e.tables table_name with
      | none => results
      | some table =>
        let rows := staging_data table_name
        dictInsert results table_name
          ⟨table.schema, table.name, rows, rows.length,
           find_limit_rule e table⟩)
    []

/-- Method `sample_all`: staging mode when selected, direct otherwise. -/
def sample_all (e : SamplingEngine) (db : SourceDB)
    (staging_data : QName → List Row)
    (set_order : List QName → List QName) :
    Except String (List (QName × SamplingResult)) :=
  if e.use_staging then
    Except.ok
      (sample_with_staging e staging_data
        (get_insertion_order e.resolver set_order))
  else sample_direct e db set_order

/-! ### Integrity verifier (method verify_referential_integrity) -/

/-- One violation record, mirroring the dict the method builds. -/
structure Violation where
  constraint : String
  table : QName
  columns : List String
  referenced_table : QName
  referenced_columns : List String
  violation_count : Nat
  sample_violations : List Row
deriving Repr, DecidableEq

/-- The non-null foreign-key projections of a result's rows, deduplicated in
first-occurrence order (`fk_values` in the method). -/
def collect_fk_values (rows : List Row) (idxs : List Nat) : List Row :=
  rows.foldl
    (fun s row =>
      let v := proj_at row idxs
      if none ∈ v then s else listAddSet s v)
    []

/-- The referenced-column projections of a result's rows (`ref_pk_values`). -/
def collect_ref_values (rows : List Row) (idxs : List Nat) : List Row :=
  rows.foldl (fun s row => listAddSet s (proj_at row idxs)) []

/-- The check of one foreign key inside `verify_referential_integrity`,
returning the violation record if any referenced value is missing.  All the
skip conditions of the method are reproduced: unknown referenced table,
referenced table without primary key, referenced table without result entry
or with an empty sample, foreign-key or referenced columns absent from the
column lists, no non-null foreign-key value. -/
def verify_fk (e : SamplingEngine)
    (results : List (QName × SamplingResult)) (table_name : QName)
    (table : Table) (fk : ForeignKey) : Option Violation :=
  let ref_table := refQName fk
  match dictFind? e.tables ref_table with
  | none => none
  | some ref_table_obj =>
    if ref_table_obj.has_primary_key then
      match dictFind? results ref_table with
      | none => none
      | some ref_res =>
        if ref_res.rows = [] then none
        else
          let fk_col_indices := indices_matching table.columns fk.columns
          if fk_col_indices = [] then none
          else
            let ref_pk_indices :=
              indices_matching ref_table_obj.columns fk.referenced_columns
            if ref_pk_indices = [] then none
            else
              let rows := (dictFind? results table_name).map
                SamplingResult.rows |>.getD []
              let fk_values := collect_fk_values rows fk_col_indices
              if fk_values = [] then none
              else
                let ref_pk_values :=
                  collect_ref_values ref_res.rows ref_pk_indices
                let missing :=
                  fk_values.filter (fun v => decide (v ∉ ref_pk_values))
                if missing = [] then none
                else
                  some ⟨fk.name, table_name, fk.columns, ref_table,
                    fk.referenced_columns, missing.length, missing.take 10⟩
    else none

/-- Method `verify_referential_integrity`: walk every table with a non-empty
result entry, check each foreign key, and return `(ok, violations)` with
`ok` true exactly when no violation was found. -/
def verify_referential_integrity (e : SamplingEngine)
    (results : List (QName × SamplingResult)) : Bool × List Violation :=
  let violations := e.tables.foldl
    (fun acc p =>
      match dictFind? results p.1 with
      | none => acc
      | some res =>
        if res.rows = [] then acc
        else
          p.2.foreign_keys.foldl
            (fun acc fk =>
              match verify_fk e results p.1 p.2 fk with
              | some v => acc ++ [v]
              | none => acc)
            acc)
    []
  (violations.isEmpty, violations)

/-! ### Closure law (spec side)

The closure law stated by the spec: after `sample_all()`, every sampled
row's non-null foreign-key projection appears among the primary-key
projections of the referenced table's sample, for every foreign key between
tables under sample whose target has a primary key.  This definition follows
the claim's words and is compared against what the code computes. -/

/-- Decidable statement of the spec's closure law over a result map. -/
def closure_ok (e : SamplingEngine)
    (results : List (QName × SamplingResult)) : Bool :=
  e.tables.all (fun p =>
    match dictFind? results p.1 with
    | none => true
    | some resA =>
      p.2.foreign_keys.all (fun fk =>
        let ref_table := refQName fk
        match dictFind? e.tables ref_table with
        | none => true
        | some refObj =>
          if refObj.has_primary_key then
            let refRows :=
              ((dictFind? results ref_table).map SamplingResult.rows).getD []
            resA.rows.all (fun r =>
              let v := proj_at r (indices_matching p.2.columns fk.columns)
              (none ∈ v : Bool) ||
                refRows.any (fun s => proj_at s (pk_indices refObj) = v))
          else true))

/-! ### Staging manager (dbsample/staging.py) and its caller (cli.py) -/

/-- Driver-level errors that staging operations can raise. -/
inductive PgError where
  | insufficient_privilege
  | other_error (msg : String)
deriving Repr, DecidableEq

/-- Severity of a logged message. -/
inductive LogLevel where
  | info
  | warning
  | error
deriving Repr, DecidableEq

/-- Outcome of the three statements `create_schema` may run: the existence
check, the forced drop and the schema creation. -/
structure StagingEnv where
  exists_check : Except PgError Bool
  drop_result : Except PgError Unit
  create_result : Except PgError Unit

/-- State of `StagingManager`. -/
structure StagingManager where
  schema_name : String
  schema_created : Bool
deriving Repr, DecidableEq

/-- The log line the exception handlers of `create_schema` produce. -/
def create_schema_error_log (err : PgError) : LogLevel × String :=
  match err with
  | PgError.insufficient_privilege =>
    (LogLevel.error,
     "Insufficient privileges to create staging schema. Falling back to direct query mode.")
  | PgError.other_error _ =>
    (LogLevel.error, "Failed to create staging schema")

/-- Method `create_schema`: check whether the schema exists; refuse softly
when it does and `force` is not set; otherwise drop (if forced) and create.
Every raised error is caught: an `InsufficientPrivilege` error logs the
fallback message, anything else the generic failure, and the method returns
`False`.  The returned triple is (return value, manager state, log). -/
def create_schema (m : StagingManager) (force : Bool) (env : StagingEnv) :
    Bool × StagingManager × List (LogLevel × String) :=
  match env.exists_check with
  | Except.error e => (false, m, [create_schema_error_log e])
  | Except.ok ex =>
    if ex && !force then
      (false, m,
       [(LogLevel.warning,
         "Staging schema already exists. Use force to drop it, or keep to preserve it.")])
    else
      let dropLog : List (LogLevel × String) :=
        if ex then [(LogLevel.info, "Dropping existing staging schema")] else []
      match (if ex then env.drop_result else Except.ok ()) with
      | Except.error e => (false, m, dropLog ++ [create_schema_error_log e])
      | Except.ok _ =>
        match env.create_result with
        | Except.error e => (false, m, dropLog ++ [create_schema_error_log e])
        | Except.ok _ =>
          (true, { m with schema_created := true },
           dropLog ++ [(LogLevel.info, "Creating staging schema")])

/-- The staging decision in `main` (cli.py): when staging is requested, a
manager is built and `create_schema(force)` is called; on failure the mode
is downgraded to direct and the manager discarded. -/
def staging_setup (use_staging : Bool) (sample_schema : String)
    (force : Bool) (env : StagingEnv) : Bool × Option StagingManager :=
  if use_staging then
    let m : StagingManager := ⟨sample_schema, false⟩
    let r := create_schema m force env
    if r.1 then (true, some r.2.1) else (false, none)
  else (use_staging, none)

/-- The sampling stage of `main`: apply the staging decision and run
`sample_all` on an engine configured with the decided mode. -/
def run_sampling (use_staging : Bool) (sample_schema : String) (force : Bool)
    (env : StagingEnv) (e : SamplingEngine) (db : SourceDB)
    (staging_data : QName → List Row)
    (set_order : List QName → List QName) :
    Except String (List (QName × SamplingResult)) :=
  let decision := staging_setup use_staging sample_schema force env
  sample_all { e with use_staging := decision.1 } db staging_data set_order

/-! ### Basic lemmas about the dict and set models -/

theorem dictFind?_nil {α : Type} (k : QName) :
    dictFind? ([] : List (QName × α)) k = none := rfl

theorem dictFind?_cons {α : Type} (p : QName × α) (d : List (QName × α))
    (k : QName) :
    dictFind? (p :: d) k = if p.1 = k then some p.2 else dictFind? d k := by
  by_cases h : p.1 = k <;> simp [dictFind?, List.find?_cons, h]

theorem dictFind?_map_replace {α : Type} (d : List (QName × α)) (k : QName)
    (v : α) (k' : QName) :
    dictFind? (d.map (fun p => if p.1 = k then (k, v) else p)) k' =
      if k' = k then
        (if d.any (fun p => p.1 = k) then some v else none)
      else dictFind? d k' := by
  induction d with
  | nil => by_cases h : k' = k <;> simp [dictFind?, h]
  | cons p d ih =>
    by_cases hp : p.1 = k
    · by_cases hk : k' = k
      · subst hk
        simp [hp, dictFind?_cons, List.any_cons, ih]
      · have hkk : k ≠ k' := fun h => hk h.symm
        have hpk : p.1 ≠ k' := by rw [hp]; exact hkk
        simp [hp, dictFind?_cons, List.any_cons, ih, hk, hkk, hpk]
    · by_cases hk : k' = k
      · subst hk
        rw [List.map_cons, if_neg hp, dictFind?_cons, if_neg hp, ih,
          List.any_cons, decide_eq_false hp, Bool.false_or]
        simp
      · simp [hp, dictFind?_cons, List.any_cons, ih, hk]

theorem dictFind?_append {α : Type} (d₁ d₂ : List (QName × α)) (k : QName) :
    dictFind? (d₁ ++ d₂) k =
      ((dictFind? d₁ k).rec (dictFind? d₂ k) (fun v => some v) :
        Option α) := by
  induction d₁ with
  | nil => simp [dictFind?]
  | cons p d ih =>
    by_cases h : p.1 = k <;>
      simp [dictFind?_cons, h, ih, List.cons_append]

theorem dictFind?_dictInsert {α : Type} (d : List (QName × α)) (k : QName)
    (v : α) (k' : QName) :
    dictFind? (dictInsert d k v) k' =
      if k' = k then some v else dictFind? d k' := by
  unfold dictInsert
  by_cases h : d.any (fun p => p.1 = k)
  · rw [if_pos h, dictFind?_map_replace, if_pos h]
  · rw [if_neg h, dictFind?_append]
    have hnone : dictFind? d k = none := by
      unfold dictFind?
      rw [List.find?_eq_none.mpr, Option.map_none']
      intro p hp hpk
      exact h (List.any_eq_true.mpr ⟨p, hp, hpk⟩)
    by_cases hk : k' = k
    · subst hk
      rw [hnone]
      simp [dictFind?_cons]
    · have hkk : k ≠ k' := fun h => hk h.symm
      cases hfd : dictFind? d k' with
      | none => simp [hfd, dictFind?_cons, dictFind?_nil, hk, hkk]
      | some w => simp [hfd, hk]

theorem dictFind?_mem {α : Type} {d : List (QName × α)} {k : QName} {v : α}
    (h : dictFind? d k = some v) : (k, v) ∈ d := by
  unfold dictFind? at h
  cases hf : d.find? (fun p => p.1 = k) with
  | none => rw [hf] at h; exact absurd h (by simp)
  | some p =>
    rw [hf] at h
    have hp : p ∈ d := List.mem_of_find?_eq_some hf
    have hk : p.1 = k := by
      have := List.find?_some hf
      simpa using this
    have hv : p.2 = v := by simpa using h
    have : (k, v) = p := by
      cases p
      simp_all
    rwa [this]

theorem mem_listAddSet {α : Type} [DecidableEq α] (s : List α) (x y : α) :
    y ∈ listAddSet s x ↔ y ∈ s ∨ y = x := by
  unfold listAddSet
  by_cases h : x ∈ s
  · rw [if_pos h]
    constructor
    · exact Or.inl
    · rintro (hy | rfl)
      · exact hy
      · exact h
  · rw [if_neg h]
    simp

theorem mem_listAddSet_of_mem {α : Type} [DecidableEq α] {s : List α}
    {y : α} (x : α) (h : y ∈ s) : y ∈ listAddSet s x :=
  (mem_listAddSet s x y).mpr (Or.inl h)

theorem self_mem_listAddSet {α : Type} [DecidableEq α] (s : List α) (x : α) :
    x ∈ listAddSet s x :=
  (mem_listAddSet s x x).mpr (Or.inr rfl)

theorem mem_foldl_addSet {α β : Type} [DecidableEq β] (f : α → β) :
    ∀ (l : List α) (init : List β) (x : β),
      x ∈ l.foldl (fun s a => listAddSet s (f a)) init ↔
        x ∈ init ∨ ∃ a ∈ l, f a = x := by
  intro l
  induction l with
  | nil => simp
  | cons a l ih =>
    intro init x
    rw [List.foldl_cons, ih]
    rw [mem_listAddSet]
    constructor
    · rintro ((hy | rfl) | ⟨b, hb, rfl⟩)
      · exact Or.inl hy
      · exact Or.inr ⟨a, List.mem_cons_self a l, rfl⟩
      · exact Or.inr ⟨b, List.mem_cons_of_mem a hb, rfl⟩
    · rintro (hy | ⟨b, hb, rfl⟩)
      · exact Or.inl (Or.inl hy)
      · rcases List.mem_cons.mp hb with rfl | hb
        · exact Or.inl (Or.inr rfl)
        · exact Or.inr ⟨b, hb, rfl⟩

theorem mem_foldl_skip_add {α β : Type} [DecidableEq β] (f : α → β)
    (p : α → Prop) [DecidablePred p] :
    ∀ (l : List α) (init : List β) (x : β),
      x ∈ l.foldl (fun s a => if p a then s else listAddSet s (f a)) init ↔
        x ∈ init ∨ ∃ a ∈ l, ¬ p a ∧ f a = x := by
  intro l
  induction l with
  | nil => simp
  | cons a l ih =>
    intro init x
    rw [List.foldl_cons]
    by_cases hp : p a
    · rw [if_pos hp, ih]
      constructor
      · rintro (hy | ⟨b, hb, hbp, rfl⟩)
        · exact Or.inl hy
        · exact Or.inr ⟨b, List.mem_cons_of_mem a hb, hbp, rfl⟩
      · rintro (hy | ⟨b, hb, hbp, rfl⟩)
        · exact Or.inl hy
        · rcases List.mem_cons.mp hb with rfl | hb
          · exact absurd hp hbp
          · exact Or.inr ⟨b, hb, hbp, rfl⟩
    · rw [if_neg hp, ih, mem_listAddSet]
      constructor
      · rintro ((hy | rfl) | ⟨b, hb, hbp, rfl⟩)
        · exact Or.inl hy
        · exact Or.inr ⟨a, List.mem_cons_self a l, hp, rfl⟩
        · exact Or.inr ⟨b, List.mem_cons_of_mem a hb, hbp, rfl⟩
      · rintro (hy | ⟨b, hb, hbp, rfl⟩)
        · exact Or.inl (Or.inl hy)
        · rcases List.mem_cons.mp hb with rfl | hb
          · exact Or.inl (Or.inr rfl)
          · exact Or.inr ⟨b, hb, hbp, rfl⟩

theorem foldl_preserve {σ α : Type} (f : σ → α → σ) (P : σ → Prop) :
    ∀ (l : List α), (∀ s a, a ∈ l → P s → P (f s a)) →
      ∀ s0, P s0 → P (l.foldl f s0) := by
  intro l
  induction l with
  | nil => exact fun _ s0 h0 => h0
  | cons a l ih =>
    intro h s0 h0
    exact ih (fun s b hb => h s b (List.mem_cons_of_mem a hb))
      (f s0 a) (h s0 a (List.mem_cons_self a l) h0)

theorem foldl_establish {σ α : Type} (f : σ → α → σ) (Inv P : σ → Prop) :
    ∀ (l : List α) (x : α), x ∈ l →
      (∀ s a, a ∈ l → Inv s → Inv (f s a)) →
      (∀ s, Inv s → P (f s x)) →
      (∀ s a, a ∈ l → P s → P (f s a)) →
      ∀ s0, Inv s0 → P (l.foldl f s0) := by
  intro l
  induction l with
  | nil => intro x hx; exact absurd hx (List.not_mem_nil x)
  | cons a l ih =>
    intro x hx hInv hEst hPres s0 h0
    rcases List.mem_cons.mp hx with rfl | hx
    · rw [List.foldl_cons]
      exact foldl_preserve f P l
        (fun s b hb => hPres s b (List.mem_cons_of_mem x hb))
        (f s0 x) (hEst s0 h0)
    · rw [List.foldl_cons]
      exact ih x hx
        (fun s b hb => hInv s b (List.mem_cons_of_mem a hb))
        hEst
        (fun s b hb => hPres s b (List.mem_cons_of_mem a hb))
        (f s0 a) (hInv s0 a (List.mem_cons_self a l) h0)

theorem mem_foldl_addSet_id {β : Type} [DecidableEq β] :
    ∀ (l init : List β) (x : β),
      x ∈ l.foldl listAddSet init ↔ x ∈ init ∨ x ∈ l := by
  intro l
  induction l with
  | nil => simp
  | cons a l ih =>
    intro init x
    rw [List.foldl_cons, ih, mem_listAddSet]
    constructor
    · rintro ((hy | rfl) | hy)
      · exact Or.inl hy
      · exact Or.inr (List.mem_cons_self _ _)
      · exact Or.inr (List.mem_cons_of_mem a hy)
    · rintro (hy | hy)
      · exact Or.inl (Or.inl hy)
      · rcases List.mem_cons.mp hy with rfl | hy
        · exact Or.inl (Or.inr rfl)
        · exact Or.inr hy

/-! ### C10: the BFS closures never contain their start node -/

theorem bfs_closure_no_self (g : List (QName × List QName)) (t : QName) :
    ∀ (fuel : Nat) (queue visited acc : List QName),
      t ∈ visited → t ∉ acc → t ∉ bfs_closure g fuel queue visited acc := by
  intro fuel
  induction fuel with
  | zero => intro queue visited acc _ hacc; exact hacc
  | succ n ih =>
    intro queue visited acc hvis hacc
    cases queue with
    | nil => exact hacc
    | cons current rest =>
      by_cases hc : current ∈ visited
      · rw [bfs_closure, if_pos hc]
        exact ih rest visited acc hvis hacc
      · rw [bfs_closure, if_neg hc]
        apply ih
        · exact List.mem_append_left _ hvis
        · intro hmem
          rcases (mem_foldl_addSet_id _ acc t).mp hmem with h | h
          · exact hacc h
          · have := List.of_mem_filter h
            have hv : t ∈ visited ++ [current] :=
              List.mem_append_left _ hvis
            simp [hv] at this

theorem bfs_closure_from_start (g : List (QName × List QName)) (t : QName) :
    ∀ fuel, t ∉ bfs_closure g fuel [t] [] [] := by
  intro fuel
  cases fuel with
  | zero => exact List.not_mem_nil t
  | succ n =>
    rw [bfs_closure, if_neg (List.not_mem_nil t)]
    apply bfs_closure_no_self
    · exact List.mem_append_right [] (List.mem_singleton.mpr rfl)
    · intro hmem
      rcases (mem_foldl_addSet_id _ [] t).mp hmem with h | h
      · exact (List.not_mem_nil t) h
      · have := List.of_mem_filter h
        have hv : t ∈ ([] : List QName) ++ [t] :=
          List.mem_append_right [] (List.mem_singleton.mpr rfl)
        simp [hv] at this

/-- C10: for every table `t`, neither `get_dependencies(t)` nor
`get_dependent_tables(t)` contains `t` itself, even when `t` has a
self-referencing foreign key or lies on a dependency cycle: the BFS marks
the start node visited on its first pop, and a node is only accumulated
while unvisited. -/
theorem dependencies_never_contain_self (r : DependencyResolver)
    (t : QName) :
    t ∉ get_dependencies r t ∧ t ∉ get_dependent_tables r t :=
  ⟨bfs_closure_from_start r.dep_graph t (bfs_fuel r.dep_graph),
   bfs_closure_from_start r.rev_graph t (bfs_fuel r.rev_graph)⟩

/-! ### C2: the default LIMIT 100 query cannot be executed -/

/-- A one-table schema with no limit rule at all. -/
def c2_table : Table := ⟨"s", "t", [⟨"id"⟩], ["id"], []⟩

/-- Source database holding two rows of `s.t`. -/
def c2_db : SourceDB :=
  ⟨fun _ => [[some 1], [some 2]], fun _ _ => true, fun _ l => l⟩

/-- Engine over `c2_table` with an empty rule list, so no rule matches. -/
def c2_engine : SamplingEngine :=
  ⟨mk_tables_dict [c2_table], mk_resolver [c2_table], [], false, true, false,
   [], false⟩

/-- C2, code bug: when no limit rule matches, `_build_query` emits the
literal text `LIMIT 100` (no `%s` placeholder) yet still appends `100` to
the parameter list, so `cursor.execute(query, params)` raises a psycopg
parameter-count error instead of returning up to 100 rows: sampling the
table fails although the source holds two rows. -/
theorem default_limit_execution_fails :
    (build_query c2_engine c2_db c2_table
        (find_limit_rule c2_engine c2_table)).1.limit =
      some (LimitClause.literal 100) ∧
    (build_query c2_engine c2_db c2_table
        (find_limit_rule c2_engine c2_table)).2 = [100] ∧
    find_limit_rule c2_engine c2_table = none ∧
    sample_table c2_engine c2_db c2_table =
      Except.error "query placeholder count and parameter count differ" := by
  refine ⟨rfl, rfl, rfl, rfl⟩

/-! ### C7: percentage rules -/

theorem build_query_percentage (e : SamplingEngine) (db : SourceDB)
    (t : Table) (ru : LimitRule) (p : ℚ)
    (ht : ru.limit_type = LimitType.percentage)
    (hv : ru.value = RuleValue.vrat p) :
    (build_query e db t (some ru)).2 =
      [max 1 ((((db.rows t.qualified_name).length : ℚ) * p / 100).floor)] ∧
    (build_query e db t (some ru)).1.limit =
      some LimitClause.placeholder := by
  constructor <;> simp [build_query, ht, hv, RuleValue.toRat]

/-- C7: whenever the rule found for a table is PERCENTAGE(p), the limit
parameter the engine binds is computed from the table's total row count (the
`SELECT COUNT(*)` result, here the length of the source rows) as
`max(1, floor(total * p / 100))`, the query carries a `LIMIT %s`
placeholder, and a successful execution returns at most that many rows. -/
theorem percentage_rule_limit (e : SamplingEngine) (db : SourceDB)
    (t : Table) (ru : LimitRule) (p : ℚ)
    (hr : find_limit_rule e t = some ru)
    (ht : ru.limit_type = LimitType.percentage)
    (hv : ru.value = RuleValue.vrat p) :
    (build_query e db t (find_limit_rule e t)).2 =
      [max 1 ((((db.rows t.qualified_name).length : ℚ) * p / 100).floor)] ∧
    (build_query e db t (find_limit_rule e t)).1.limit =
      some LimitClause.placeholder ∧
    ∀ res, sample_table e db t = Except.ok res →
      res.rows.length ≤
        (max 1
          ((((db.rows t.qualified_name).length : ℚ) * p / 100).floor)).toNat
    := by
  have hq := build_query_percentage e db t ru p ht hv
  rw [hr]
  refine ⟨hq.1, hq.2, ?_⟩
  intro res h
  unfold sample_table at h
  rw [hr] at h
  dsimp only [] at h
  cases hex : execute db t.columns (build_query e db t (some ru)).1
      (build_query e db t (some ru)).2 with
  | error msg => rw [hex] at h; exact absurd h (by simp [Except.map])
  | ok rows =>
    rw [hex] at h
    simp only [Except.map, Except.ok.injEq] at h
    have hrows : res.rows = rows := by rw [← h]
    unfold execute at hex
    by_cases hnp :
        num_placeholders (build_query e db t (some ru)).1 ≠
          (build_query e db t (some ru)).2.length
    · rw [if_pos hnp] at hex
      exact absurd hex (by simp)
    · rw [if_neg hnp] at hex
      rw [hq.1, hq.2] at hex
      simp only [Except.ok.injEq] at hex
      rw [hrows, ← hex, List.length_map]
      exact List.length_take_le _ _

/-- Scenario S2: a 7-row table `s.t` under the rule `t=10%`. -/
def c7_table : Table := ⟨"s", "t", [⟨"v"⟩], [], []⟩

/-- Source database with exactly 7 rows in every table. -/
def c7_db : SourceDB :=
  ⟨fun _ =>
    [[some 1], [some 2], [some 3], [some 4], [some 5], [some 6], [some 7]],
   fun _ _ => true, fun _ l => l⟩

/-- The rule `t=10%`. -/
def c7_rule : LimitRule := ⟨"t", LimitType.percentage, RuleValue.vrat 10⟩

/-- Engine sampling `c7_table` under `c7_rule`. -/
def c7_engine : SamplingEngine :=
  ⟨mk_tables_dict [c7_table], mk_resolver [c7_table], [c7_rule], false, true,
   false, [], false⟩

/-- Witness for C7 at scenario S2: the rule `t=10%` is found for the 7-row
table, the bound limit parameter evaluates to `max(1, floor(7*10/100)) = 1`,
and executing the query samples exactly one row. -/
theorem percentage_rule_limit_w :
    find_limit_rule c7_engine c7_table = some c7_rule ∧
    (build_query c7_engine c7_db c7_table
        (find_limit_rule c7_engine c7_table)).2 = [1] ∧
    sample_table c7_engine c7_db c7_table =
      Except.ok ⟨"s", "t", [[some 1]], 1, some c7_rule⟩ := by
  have hfind : find_limit_rule c7_engine c7_table = some c7_rule := by decide
  have hlen : (c7_db.rows c7_table.qualified_name).length = 7 := rfl
  have hmax :
      max 1
        ((((c7_db.rows c7_table.qualified_name).length : ℚ) * 10 / 100).floor)
        = 1 := by
    rw [hlen]
    have hfloor : (((7 : ℕ) : ℚ) * 10 / 100).floor = 0 := by
      rw [show (((7 : ℕ) : ℚ) * 10 / 100) = 7 / 10 by norm_num,
        Rat.floor_def']
      norm_num
    rw [hfloor]
    decide
  have hp := (percentage_rule_limit c7_engine c7_db c7_table c7_rule 10
    hfind rfl rfl).1
  rw [hmax] at hp
  refine ⟨hfind, hp, ?_⟩
  unfold sample_table
  dsimp only []
  rw [hp]
  decide

/-! ### C8: privilege failure on staging creation downgrades to direct mode -/

/-- C8: when creating the staging schema raises `InsufficientPrivilege`,
`create_schema` catches it, logs the fallback error and returns `False`
without marking the schema created; the caller in `main` then clears
`use_staging`, and `sample_all` runs the direct in-memory path to
completion: the pipeline's result is exactly the direct-mode result. -/
theorem staging_privilege_downgrade (schema : String) (force : Bool)
    (env : StagingEnv) (e : SamplingEngine) (db : SourceDB)
    (staging_data : QName → List Row) (set_order : List QName → List QName)
    (hex : env.exists_check = Except.ok false)
    (hcr : env.create_result = Except.error PgError.insufficient_privilege) :
    (create_schema ⟨schema, false⟩ force env).1 = false ∧
    (create_schema ⟨schema, false⟩ force env).2.1.schema_created = false ∧
    (create_schema ⟨schema, false⟩ force env).2.2 =
      [(LogLevel.error,
        "Insufficient privileges to create staging schema. Falling back to direct query mode.")] ∧
    staging_setup true schema force env = (false, none) ∧
    run_sampling true schema force env e db staging_data set_order =
      sample_direct { e with use_staging := false } db set_order := by
  have hc : create_schema ⟨schema, false⟩ force env =
      (false, ⟨schema, false⟩,
       [(LogLevel.error,
         "Insufficient privileges to create staging schema. Falling back to direct query mode.")]) := by
    unfold create_schema
    rw [hex]
    simp [hcr, create_schema_error_log]
  have hs : staging_setup true schema force env = (false, none) := by
    unfold staging_setup
    dsimp only []
    rw [hc]
    simp
  refine ⟨by rw [hc], by rw [hc], by rw [hc], hs, ?_⟩
  unfold run_sampling
  rw [hs]
  unfold sample_all
  simp

/-- Concrete staging environment in which schema creation is refused for
lack of privilege. -/
def c8_env : StagingEnv :=
  ⟨Except.ok false, Except.ok (), Except.error PgError.insufficient_privilege⟩

/-- Witness for C8: with the concrete environment `c8_env`, creation fails
softly, the mode is downgraded and the pipeline equals direct sampling. -/
theorem staging_privilege_downgrade_w :
    c8_env.exists_check = Except.ok false ∧
    c8_env.create_result = Except.error PgError.insufficient_privilege ∧
    (create_schema ⟨"_dbsample", false⟩ false c8_env).1 = false ∧
    staging_setup true "_dbsample" false c8_env = (false, none) ∧
    run_sampling true "_dbsample" false c8_env c2_engine c2_db
        (fun _ => []) id =
      sample_direct { c2_engine with use_staging := false } c2_db id :=
  ⟨rfl, rfl,
   (staging_privilege_downgrade "_dbsample" false c8_env c2_engine c2_db
      (fun _ => []) id rfl rfl).1,
   (staging_privilege_downgrade "_dbsample" false c8_env c2_engine c2_db
      (fun _ => []) id rfl rfl).2.2.2.1,
   (staging_privilege_downgrade "_dbsample" false c8_env c2_engine c2_db
      (fun _ => []) id rfl rfl).2.2.2.2⟩

/-! ### C6: order of the leftover (cycle) tables -/

/-- C6, amended: the tables left over after Kahn's algorithm are appended
after the Kahn output in whatever order the Python set enumeration yields
(not sorted); the appended segment contains exactly the known tables that
Kahn did not emit, and the output is determined by that enumeration. -/
theorem insertion_order_leftover (r : DependencyResolver)
    (o : List QName → List QName)
    (ho : (o (insertion_remaining r)).Perm (insertion_remaining r)) :
    get_insertion_order r o = kahn_emitted r ++ o (insertion_remaining r) ∧
    (∀ x, x ∈ o (insertion_remaining r) ↔
      (x ∈ r.tables.map Prod.fst ∧ x ∉ kahn_emitted r)) ∧
    ∀ o2 : List QName → List QName,
      o2 (insertion_remaining r) = o (insertion_remaining r) →
      get_insertion_order r o2 = get_insertion_order r o := by
  refine ⟨rfl, ?_, ?_⟩
  · intro x
    rw [ho.mem_iff]
    unfold insertion_remaining
    rw [List.mem_filter]
    simp
  · intro o2 h
    unfold get_insertion_order
    rw [h]

/-- A two-table cycle: `s.a` and `s.b` reference each other. -/
def c6_table_a : Table := ⟨"s", "a", [⟨"id"⟩, ⟨"b_id"⟩], ["id"],
  [⟨"fk_ab", "s", "a", ["b_id"], "s", "b", ["id"]⟩]⟩

/-- Companion table of the two-table cycle. -/
def c6_table_b : Table := ⟨"s", "b", [⟨"id"⟩, ⟨"a_id"⟩], ["id"],
  [⟨"fk_ba", "s", "b", ["a_id"], "s", "a", ["id"]⟩]⟩

/-- Resolver over the two-table cycle. -/
def c6_resolver : DependencyResolver := mk_resolver [c6_table_a, c6_table_b]

/-- C6, counterexample: on the two-table cycle Kahn emits nothing and both
tables are leftovers.  The reversed enumeration is a legitimate iteration
order of the Python set (string set order depends on the process hash
seed), yet the code appends the leftovers exactly in that enumeration
order, producing `[s.b, s.a]`: the appended segment is not in lexicographic
order, and two evaluations whose set enumerations differ return different
lists — refuting the claim that leftovers are appended in lexicographic
order making any two evaluations agree. -/
theorem c6_leftover_not_lexicographic :
    get_insertion_order c6_resolver List.reverse = ["s.b", "s.a"] ∧
    (List.reverse (insertion_remaining c6_resolver)).Perm
      (insertion_remaining c6_resolver) ∧
    str_lt "s.a" "s.b" = true ∧
    ¬ List.Pairwise (fun a b => str_le a b = true)
        (get_insertion_order c6_resolver List.reverse) ∧
    get_insertion_order c6_resolver id ≠
      get_insertion_order c6_resolver List.reverse := by
  refine ⟨by decide, by decide, by decide, by decide, by decide⟩

/-- Witness for the amended C6 at the concrete cycle with the identity
enumeration. -/
theorem insertion_order_leftover_w :
    (id (insertion_remaining c6_resolver)).Perm
      (insertion_remaining c6_resolver) ∧
    get_insertion_order c6_resolver id =
      kahn_emitted c6_resolver ++ id (insertion_remaining c6_resolver) :=
  ⟨by decide, (insertion_order_leftover c6_resolver id (by decide)).1⟩

/-! ### C5: topological soundness of the insertion order

The proof follows Kahn's algorithm: well-formedness of the graphs built by
`_build_graph`, the loop invariant of `kahn_loop`, and the final assembly. -/

/-- Keys of an association list. -/
def dkeys {α : Type} (d : List (QName × α)) : List QName := d.map Prod.fst

theorem dictFind?_isSome_iff_mem_dkeys {α : Type} (d : List (QName × α))
    (k : QName) : (dictFind? d k).isSome ↔ k ∈ dkeys d := by
  induction d with
  | nil => simp [dictFind?, dkeys]
  | cons p d ih =>
    rw [dictFind?_cons]
    by_cases h : p.1 = k
    · simp [h, dkeys]
    · have : k ≠ p.1 := fun hx => h hx.symm
      simp [h, dkeys, ih, this]

theorem mem_dkeys_of_dictFind? {α : Type} {d : List (QName × α)} {k : QName}
    {v : α} (h : dictFind? d k = some v) : k ∈ dkeys d :=
  (dictFind?_isSome_iff_mem_dkeys d k).mp (by rw [h]; rfl)

theorem dictFind?_of_mem_nodup {α : Type} {d : List (QName × α)}
    (hnd : (dkeys d).Nodup) {p : QName × α} (hp : p ∈ d) :
    dictFind? d p.1 = some p.2 := by
  induction d with
  | nil => exact absurd hp (List.not_mem_nil p)
  | cons q d ih =>
    rcases List.mem_cons.mp hp with rfl | hp
    · rw [dictFind?_cons, if_pos rfl]
    · rw [dictFind?_cons]
      have hnd' : (dkeys d).Nodup := (List.nodup_cons.mp hnd).2
      by_cases hq : q.1 = p.1
      · exfalso
        have : p.1 ∈ dkeys d := List.mem_map_of_mem Prod.fst hp
        rw [← hq] at this
        exact (List.nodup_cons.mp hnd).1 this
      · rw [if_neg hq]
        exact ih hnd' hp

theorem dictFind?_map_val {α β : Type} (d : List (QName × α)) (f : α → β)
    (k : QName) :
    dictFind? (d.map (fun p => (p.1, f p.2))) k =
      (dictFind? d k).map f := by
  induction d with
  | nil => simp [dictFind?]
  | cons p d ih =>
    by_cases h : p.1 = k <;> simp [dictFind?_cons, h, ih]

theorem dkeys_dictInsert {α : Type} (d : List (QName × α)) (k : QName)
    (v : α) :
    dkeys (dictInsert d k v) =
      if d.any (fun p => p.1 = k) then dkeys d else dkeys d ++ [k] := by
  unfold dictInsert
  by_cases h : d.any (fun p => p.1 = k)
  · rw [if_pos h, if_pos h]
    unfold dkeys
    rw [List.map_map]
    apply List.map_congr_left
    intro p _
    by_cases hp : p.1 = k <;> simp [Function.comp, hp]
  · rw [if_neg h, if_neg h]
    unfold dkeys
    rw [List.map_append]
    rfl

theorem mem_dkeys_dictInsert {α : Type} (d : List (QName × α)) (k : QName)
    (v : α) (x : QName) :
    x ∈ dkeys (dictInsert d k v) ↔ x ∈ dkeys d ∨ x = k := by
  rw [dkeys_dictInsert]
  by_cases h : d.any (fun p => p.1 = k)
  · rw [if_pos h]
    constructor
    · exact Or.inl
    · rintro (hx | rfl)
      · exact hx
      · rcases List.any_eq_true.mp h with ⟨p, hp, hpk⟩
        have : p.1 = x := by simpa using hpk
        rw [← this]
        exact List.mem_map_of_mem Prod.fst hp
  · rw [if_neg h]
    simp

theorem dkeys_nodup_dictInsert {α : Type} (d : List (QName × α)) (k : QName)
    (v : α) (hnd : (dkeys d).Nodup) : (dkeys (dictInsert d k v)).Nodup := by
  rw [dkeys_dictInsert]
  by_cases h : d.any (fun p => p.1 = k)
  · rwa [if_pos h]
  · rw [if_neg h]
    apply List.Nodup.append hnd (List.nodup_singleton k)
    intro x hx hxk
    rcases List.mem_singleton.mp hxk with rfl
    rcases List.mem_map.mp hx with ⟨p, hp, hpk⟩
    exact h (List.any_eq_true.mpr ⟨p, hp, by simpa using hpk⟩)

theorem mem_dictInsert {α : Type} {d : List (QName × α)} {k : QName} {v : α}
    {p : QName × α} (hp : p ∈ dictInsert d k v) : p = (k, v) ∨ p ∈ d := by
  unfold dictInsert at hp
  by_cases h : d.any (fun q => q.1 = k)
  · rw [if_pos h] at hp
    rcases List.mem_map.mp hp with ⟨q, hq, hqe⟩
    by_cases hqk : q.1 = k
    · rw [if_pos hqk] at hqe
      exact Or.inl hqe.symm
    · rw [if_neg hqk] at hqe
      exact Or.inr (hqe ▸ hq)
  · rw [if_neg h] at hp
    rcases List.mem_append.mp hp with hp | hp
    · exact Or.inr hp
    · exact Or.inl (List.mem_singleton.mp hp)

theorem nodup_listAddSet {α : Type} [DecidableEq α] {s : List α}
    (h : s.Nodup) (x : α) : (listAddSet s x).Nodup := by
  unfold listAddSet
  by_cases hx : x ∈ s
  · rwa [if_pos hx]
  · rw [if_neg hx]
    exact List.Nodup.append h (List.nodup_singleton x)
      (by intro y hy hyx; rcases List.mem_singleton.mp hyx with rfl; exact hx hy)

theorem adjOf_addEdge (g : List (QName × List QName)) (a b x : QName) :
    adjOf (addEdge g a b) x =
      if x = a then listAddSet (adjOf g a) b else adjOf g x := by
  unfold addEdge adjOf
  rw [dictFind?_dictInsert]
  by_cases h : x = a <;> simp [h]

/-- Well-formedness of the graphs `_build_graph` produces. -/
structure GraphsWf (r : DependencyResolver) : Prop where
  dep_entries : ∀ p ∈ r.dep_graph,
    p.1 ∈ dkeys r.tables ∧ (∀ b ∈ p.2, b ∈ dkeys r.tables) ∧ p.2.Nodup
  rev_entries : ∀ p ∈ r.rev_graph,
    p.1 ∈ dkeys r.tables ∧ (∀ b ∈ p.2, b ∈ dkeys r.tables) ∧ p.2.Nodup
  dep_keys_nodup : (dkeys r.dep_graph).Nodup
  rev_keys_nodup : (dkeys r.rev_graph).Nodup
  tab_keys_nodup : (dkeys r.tables).Nodup
  corr : ∀ a b, a ∈ adjOf r.rev_graph b ↔ b ∈ adjOf r.dep_graph a

theorem adj_entry_facts {g : List (QName × List QName)}
    {keys : List QName}
    (h : ∀ p ∈ g, p.1 ∈ keys ∧ (∀ b ∈ p.2, b ∈ keys) ∧ p.2.Nodup)
    (x : QName) :
    (adjOf g x).Nodup ∧ ∀ b ∈ adjOf g x, b ∈ keys ∧ x ∈ keys := by
  unfold adjOf
  cases hf : dictFind? g x with
  | none => simp
  | some adj =>
    have hmem := dictFind?_mem hf
    rcases h (x, adj) hmem with ⟨hx, hbs, hnd⟩
    exact ⟨hnd, fun b hb => ⟨hbs b hb, hx⟩⟩

/-- The intermediate well-formedness of the two graphs while `_build_graph`
folds over the tables. -/
def GPairWf (keys : List QName)
    (gs : List (QName × List QName) × List (QName × List QName)) : Prop :=
  (∀ p ∈ gs.1, p.1 ∈ keys ∧ (∀ b ∈ p.2, b ∈ keys) ∧ p.2.Nodup) ∧
  (∀ p ∈ gs.2, p.1 ∈ keys ∧ (∀ b ∈ p.2, b ∈ keys) ∧ p.2.Nodup) ∧
  (dkeys gs.1).Nodup ∧ (dkeys gs.2).Nodup ∧
  (∀ a b, a ∈ adjOf gs.2 b ↔ b ∈ adjOf gs.1 a)

theorem GPairWf_addEdge {keys : List QName}
    {gs : List (QName × List QName) × List (QName × List QName)}
    (h : GPairWf keys gs) {a0 b0 : QName} (ha0 : a0 ∈ keys)
    (hb0 : b0 ∈ keys) :
    GPairWf keys (addEdge gs.1 a0 b0, addEdge gs.2 b0 a0) := by
  obtain ⟨h1, h2, hk1, hk2, hc⟩ := h
  refine ⟨?_, ?_, ?_, ?_, ?_⟩
  · intro p hp
    rcases mem_dictInsert hp with rfl | hp
    · refine ⟨ha0, ?_, ?_⟩
      · intro b hb
        rcases (mem_listAddSet _ _ _).mp hb with hb | rfl
        · exact ((adj_entry_facts h1 a0).2 b hb).1
        · exact hb0
      · exact nodup_listAddSet (adj_entry_facts h1 a0).1 b0
    · exact h1 p hp
  · intro p hp
    rcases mem_dictInsert hp with rfl | hp
    · refine ⟨hb0, ?_, ?_⟩
      · intro b hb
        rcases (mem_listAddSet _ _ _).mp hb with hb | rfl
        · exact ((adj_entry_facts h2 b0).2 b hb).1
        · exact ha0
      · exact nodup_listAddSet (adj_entry_facts h2 b0).1 a0
    · exact h2 p hp
  · exact dkeys_nodup_dictInsert _ _ _ hk1
  · exact dkeys_nodup_dictInsert _ _ _ hk2
  · intro a b
    rw [adjOf_addEdge, adjOf_addEdge]
    by_cases hbb : b = b0
    · subst hbb
      rw [if_pos rfl]
      by_cases haa : a = a0
      · subst haa
        rw [if_pos rfl]
        constructor
        · intro _; exact self_mem_listAddSet _ _
        · intro _; exact self_mem_listAddSet _ _
      · rw [if_neg haa]
        rw [mem_listAddSet]
        constructor
        · rintro (ha | rfl)
          · exact (hc a b).mp ha
          · exact absurd rfl haa
        · intro hb
          exact Or.inl ((hc a b).mpr hb)
    · rw [if_neg hbb]
      by_cases haa : a = a0
      · subst haa
        rw [if_pos rfl, mem_listAddSet]
        constructor
        · intro ha
          exact Or.inl ((hc a b).mp ha)
        · rintro (hb | rfl)
          · exact (hc a b).mpr hb
          · exact absurd rfl hbb
      · rw [if_neg haa]
        exact hc a b

theorem mk_tables_dict_entry (tables : List Table) :
    ∀ p ∈ mk_tables_dict tables, p.1 = p.2.qualified_name := by
  unfold mk_tables_dict
  refine foldl_preserve (fun d t => dictInsert d t.qualified_name t)
    (fun d => ∀ p ∈ d, p.1 = p.2.qualified_name) tables ?_ [] ?_
  · intro d t _ hd p hp
    rcases mem_dictInsert hp with rfl | hp
    · rfl
    · exact hd p hp
  · intro p hp
    exact absurd hp (List.not_mem_nil p)

theorem mk_tables_dict_keys_nodup (tables : List Table) :
    (dkeys (mk_tables_dict tables)).Nodup := by
  unfold mk_tables_dict
  refine foldl_preserve (fun d t => dictInsert d t.qualified_name t)
    (fun d => (dkeys d).Nodup) tables ?_ [] ?_
  · intro d t _ hd
    exact dkeys_nodup_dictInsert _ _ _ hd
  · exact List.nodup_nil

theorem build_graphs_wf (tdict : List (QName × Table))
    (hqn : ∀ p ∈ tdict, p.1 = p.2.qualified_name) :
    GPairWf (dkeys tdict) (build_graphs tdict) := by
  unfold build_graphs
  apply foldl_preserve _ (GPairWf (dkeys tdict))
  · intro gs p hp hwf
    apply foldl_preserve _ (GPairWf (dkeys tdict))
    · intro gs' fk _ hwf'
      by_cases hc : (dictFind? tdict (refQName fk)).isSome
      · rw [if_pos hc]
        apply GPairWf_addEdge hwf'
        · rw [← hqn p hp]
          exact List.mem_map_of_mem Prod.fst hp
        · exact (dictFind?_isSome_iff_mem_dkeys _ _).mp hc
      · rw [if_neg hc]
        exact hwf'
    · exact hwf
  · exact ⟨fun p hp => absurd hp (List.not_mem_nil p),
      fun p hp => absurd hp (List.not_mem_nil p),
      List.nodup_nil, List.nodup_nil,
      fun a b => by simp [adjOf, dictFind?]⟩

theorem mk_resolver_wf (tables : List Table) :
    GraphsWf (mk_resolver tables) := by
  have h := build_graphs_wf (mk_tables_dict tables)
    (mk_tables_dict_entry tables)
  obtain ⟨h1, h2, hk1, hk2, hc⟩ := h
  exact ⟨h1, h2, hk1, hk2, mk_tables_dict_keys_nodup tables, hc⟩

theorem decKey_eq_map_entry (d : List (QName × Int)) (k : QName) :
    decKey d k = d.map (fun p => (p.1, if p.1 = k then p.2 - 1 else p.2)) := by
  unfold decKey
  apply List.map_congr_left
  intro p _
  by_cases h : p.1 = k <;> simp [h]

theorem dictFind?_map_entry {α : Type} (d : List (QName × α))
    (f : QName → α → α) (x : QName) :
    dictFind? (d.map (fun p => (p.1, f p.1 p.2))) x =
      (dictFind? d x).map (f x) := by
  induction d with
  | nil => simp [dictFind?]
  | cons p d ih =>
    by_cases h : p.1 = x <;> simp [dictFind?_cons, h, ih]

theorem dictFind?_decKey (d : List (QName × Int)) (k x : QName) :
    dictFind? (decKey d k) x =
      if x = k then (dictFind? d k).map (fun v => v - 1)
      else dictFind? d x := by
  rw [decKey_eq_map_entry,
    dictFind?_map_entry d (fun q v => if q = k then v - 1 else v) x]
  by_cases h : x = k
  · subst h
    simp
  · simp [h]

/-- Folding `decKey` over a list of keys (the loop body decrements each
reverse neighbour once). -/
def dec_all (deg : List (QName × Int)) (l : List QName) :
    List (QName × Int) :=
  l.foldl decKey deg

theorem dictFind?_dec_all_not_mem {l : List QName} {x : QName}
    (hx : x ∉ l) : ∀ deg, dictFind? (dec_all deg l) x = dictFind? deg x := by
  induction l with
  | nil => intro deg; rfl
  | cons a l ih =>
    intro deg
    have hxa : x ≠ a := fun h => hx (h ▸ List.mem_cons_self a l)
    have hxl : x ∉ l := fun h => hx (List.mem_cons_of_mem a h)
    show dictFind? (dec_all (decKey deg a) l) x = _
    rw [ih hxl, dictFind?_decKey, if_neg hxa]

theorem dictFind?_dec_all_mem {l : List QName} (hnd : l.Nodup) {x : QName}
    (hx : x ∈ l) :
    ∀ deg, dictFind? (dec_all deg l) x =
      (dictFind? deg x).map (fun v => v - 1) := by
  induction l with
  | nil => exact absurd hx (List.not_mem_nil x)
  | cons a l ih =>
    intro deg
    rcases List.mem_cons.mp hx with rfl | hx'
    · have hxl : x ∉ l := (List.nodup_cons.mp hnd).1
      show dictFind? (dec_all (decKey deg x) l) x = _
      rw [dictFind?_dec_all_not_mem hxl, dictFind?_decKey, if_pos rfl]
    · have hxa : x ≠ a := by
        rintro rfl
        exact (List.nodup_cons.mp hnd).1 hx'
      show dictFind? (dec_all (decKey deg a) l) x = _
      rw [ih (List.nodup_cons.mp hnd).2 hx', dictFind?_decKey, if_neg hxa]

theorem kahn_fold_batch (adj : List QName) (hnd : adj.Nodup) :
    ∀ (deg : List (QName × Int)) (queue : List QName),
      adj.foldl
        (fun (p : List (QName × Int) × List QName) dependent =>
          let deg := decKey p.1 dependent
          if dictFind? deg dependent = some 0 then (deg, p.2 ++ [dependent])
          else (deg, p.2))
        (deg, queue) =
      (dec_all deg adj,
       queue ++ adj.filter
         (fun x => decide (dictFind? (dec_all deg adj) x = some 0))) := by
  induction adj with
  | nil => intro deg queue; simp [dec_all]
  | cons a l ih =>
    intro deg queue
    have hal : a ∉ l := (List.nodup_cons.mp hnd).1
    have hl : l.Nodup := (List.nodup_cons.mp hnd).2
    have hda : dictFind? (dec_all deg (a :: l)) a
        = dictFind? (decKey deg a) a := by
      show dictFind? (dec_all (decKey deg a) l) a = _
      rw [dictFind?_dec_all_not_mem hal]
    rw [List.foldl_cons]
    dsimp only []
    by_cases hc : dictFind? (decKey deg a) a = some 0
    · rw [if_pos hc, ih hl (decKey deg a) (queue ++ [a])]
      have hfa : decide (dictFind? (dec_all deg (a :: l)) a = some 0)
          = true := by
        rw [decide_eq_true_eq, hda]
        exact hc
      rw [show dec_all (decKey deg a) l = dec_all deg (a :: l) from rfl]
      simp [List.filter_cons, hfa]
    · rw [if_neg hc, ih hl (decKey deg a) queue]
      have hfa : decide (dictFind? (dec_all deg (a :: l)) a = some 0)
          = false := by
        rw [decide_eq_false_iff_not, hda]
        exact hc
      rw [show dec_all (decKey deg a) l = dec_all deg (a :: l) from rfl]
      simp [List.filter_cons, hfa]

theorem filter_length_minus_one (m : List QName) (hnd : m.Nodup)
    (result : List QName) (n : QName) (hn : n ∈ m) (hnr : n ∉ result) :
    ((m.filter (fun y => decide (y ∉ result))).length : Int) - 1 =
      ((m.filter (fun y => decide (y ∉ result ++ [n]))).length : Int) := by
  have hsplit : m.filter (fun y => decide (y ∉ result ++ [n])) =
      (m.filter (fun y => decide (y ∉ result))).filter
        (fun y => decide (y ≠ n)) := by
    rw [List.filter_filter]
    apply List.filter_congr
    intro y _
    by_cases h1 : y = n
    · subst h1
      simp [List.mem_append]
    · by_cases h2 : y ∈ result <;> simp [h1, h2, List.mem_append]
  have hnm1 : n ∈ m.filter (fun y => decide (y ∉ result)) :=
    List.mem_filter.mpr ⟨hn, by simpa using hnr⟩
  have hm1nd : (m.filter (fun y => decide (y ∉ result))).Nodup :=
    hnd.filter _
  have herase : (m.filter (fun y => decide (y ∉ result))).filter
      (fun y => decide (y ≠ n)) =
      (m.filter (fun y => decide (y ∉ result))).erase n := by
    rw [List.Nodup.erase_eq_filter hm1nd]
    apply List.filter_congr
    intro y _
    by_cases h : y = n <;> simp [h, bne]
  have hlen := List.length_erase_of_mem hnm1
  have hpos : 0 < (m.filter (fun y => decide (y ∉ result))).length :=
    List.length_pos_of_mem hnm1
  rw [hsplit, herase, hlen]
  omega

/-- The invariant of `kahn_loop`: in-degree entries count the unemitted
dependencies, queued nodes have all dependencies emitted, the emitted list
and queue are duplicate-free and disjoint, no emitted node depends on a
later one, everything lies among the known tables, and the emitted list is
closed under dependencies. -/
def KahnInv (r : DependencyResolver) (queue : List QName)
    (deg : List (QName × Int)) (result : List QName) : Prop :=
  (∀ x d, dictFind? deg x = some d →
    d = (((adjOf r.dep_graph x).filter
      (fun y => decide (y ∉ result))).length : Int)) ∧
  (∀ x ∈ queue, ∀ y ∈ adjOf r.dep_graph x, y ∈ result) ∧
  result.Nodup ∧
  (∀ x ∈ queue, x ∉ result) ∧
  queue.Nodup ∧
  result.Pairwise (fun x y => y ∉ adjOf r.dep_graph x) ∧
  (∀ x ∈ result, x ∈ dkeys r.tables) ∧
  (∀ x ∈ queue, x ∈ dkeys r.tables) ∧
  (∀ x ∈ result, ∀ y ∈ adjOf r.dep_graph x, y ∈ result)

/-- What survives of the invariant in the list `kahn_loop` returns. -/
def KahnOut (r : DependencyResolver) (res : List QName) : Prop :=
  res.Nodup ∧
  (∀ x ∈ res, x ∈ dkeys r.tables) ∧
  res.Pairwise (fun x y => y ∉ adjOf r.dep_graph x) ∧
  (∀ x ∈ res, ∀ y ∈ adjOf r.dep_graph x, y ∈ res)

theorem kahnInv_out (r : DependencyResolver) {queue : List QName}
    {deg : List (QName × Int)} {result : List QName}
    (h : KahnInv r queue deg result) : KahnOut r result := by
  obtain ⟨_, _, h3, _, _, h6, h7, _, h9⟩ := h
  exact ⟨h3, h7, h6, h9⟩

theorem kahn_step_inv (r : DependencyResolver) (hwf : GraphsWf r)
    {n : QName} {rest : List QName} {deg : List (QName × Int)}
    {result : List QName} (hinv : KahnInv r (n :: rest) deg result) :
    KahnInv r
      (rest ++ (adjOf r.rev_graph n).filter
        (fun x => decide
          (dictFind? (dec_all deg (adjOf r.rev_graph n)) x = some 0)))
      (dec_all deg (adjOf r.rev_graph n)) (result ++ [n]) := by
  obtain ⟨h1, h2, h3, h4, h5, h6, h7, h8, h9⟩ := hinv
  have hadjR : (adjOf r.rev_graph n).Nodup :=
    (adj_entry_facts hwf.rev_entries n).1
  have hcorr := hwf.corr
  have f0 : n ∉ result := h4 n (List.mem_cons_self n rest)
  have hnq : n ∉ rest := (List.nodup_cons.mp h5).1
  have hndr : rest.Nodup := (List.nodup_cons.mp h5).2
  -- the new in-degree entries count the unemitted dependencies
  have hI1 : ∀ x d,
      dictFind? (dec_all deg (adjOf r.rev_graph n)) x = some d →
      d = (((adjOf r.dep_graph x).filter
        (fun y => decide (y ∉ result ++ [n]))).length : Int) := by
    intro x d hx
    by_cases hxa : x ∈ adjOf r.rev_graph n
    · rw [dictFind?_dec_all_mem hadjR hxa] at hx
      cases ho : dictFind? deg x with
      | none => rw [ho] at hx; exact absurd hx (by simp)
      | some d0 =>
        rw [ho] at hx
        have hd : d = d0 - 1 := by simpa using hx.symm
        have hd0 := h1 x d0 ho
        have hnx : n ∈ adjOf r.dep_graph x := (hcorr x n).mp hxa
        have hdepnd : (adjOf r.dep_graph x).Nodup :=
          (adj_entry_facts hwf.dep_entries x).1
        rw [hd, hd0]
        exact filter_length_minus_one _ hdepnd result n hnx f0
    · rw [dictFind?_dec_all_not_mem hxa] at hx
      have hnx : n ∉ adjOf r.dep_graph x :=
        fun hmem => hxa ((hcorr x n).mpr hmem)
      have hfeq : (adjOf r.dep_graph x).filter
          (fun y => decide (y ∉ result ++ [n])) =
          (adjOf r.dep_graph x).filter (fun y => decide (y ∉ result)) := by
        apply List.filter_congr
        intro y hy
        have hyn : y ≠ n := fun h => hnx (h ▸ hy)
        by_cases h2y : y ∈ result <;> simp [hyn, h2y, List.mem_append]
      rw [hfeq]
      exact h1 x d hx
  -- queued nodes have all dependencies emitted
  have hI2 : ∀ x ∈ rest ++ (adjOf r.rev_graph n).filter
      (fun x => decide
        (dictFind? (dec_all deg (adjOf r.rev_graph n)) x = some 0)),
      ∀ y ∈ adjOf r.dep_graph x, y ∈ result ++ [n] := by
    intro x hx y hy
    rcases List.mem_append.mp hx with hx | hx
    · exact List.mem_append_left _
        (h2 x (List.mem_cons_of_mem n hx) y hy)
    · have hx0 : dictFind? (dec_all deg (adjOf r.rev_graph n)) x
          = some 0 := by
        have := (List.mem_filter.mp hx).2
        simpa using this
      have hzero := hI1 x 0 hx0
      have hflen : ((adjOf r.dep_graph x).filter
          (fun y => decide (y ∉ result ++ [n]))).length = 0 := by omega
      have hfnil := List.length_eq_zero.mp hflen
      have hy2 : y ∉ result → y = n := by
        simpa using List.filter_eq_nil_iff.mp hfnil y hy
      rw [List.mem_append, List.mem_singleton]
      by_cases hyr : y ∈ result
      · exact Or.inl hyr
      · exact Or.inr (hy2 hyr)
  refine ⟨hI1, hI2, ?_, ?_, ?_, ?_, ?_, ?_, ?_⟩
  · exact List.Nodup.append h3 (List.nodup_singleton n)
      (by intro x hx hxn; rcases List.mem_singleton.mp hxn with rfl
          exact f0 hx)
  · intro x hx
    rcases List.mem_append.mp hx with hx | hx
    · have hxr : x ∉ result := h4 x (List.mem_cons_of_mem n hx)
      have hxn : x ≠ n := fun h => hnq (h ▸ hx)
      simp [List.mem_append, hxr, hxn]
    · have hxa : x ∈ adjOf r.rev_graph n := (List.mem_filter.mp hx).1
      have hnx : n ∈ adjOf r.dep_graph x := (hcorr x n).mp hxa
      have hxn : x ≠ n := by
        intro h
        apply f0
        exact h2 n (List.mem_cons_self n rest) n (h ▸ hnx)
      have hxr : x ∉ result := by
        intro hmem
        exact f0 (h9 x hmem n hnx)
      simp [List.mem_append, hxr, hxn]
  · apply List.Nodup.append hndr (hadjR.filter _)
    intro x hx hxf
    have hxa : x ∈ adjOf r.rev_graph n := (List.mem_filter.mp hxf).1
    have hnx : n ∈ adjOf r.dep_graph x := (hcorr x n).mp hxa
    exact f0 (h2 x (List.mem_cons_of_mem n hx) n hnx)
  · rw [List.pairwise_append]
    refine ⟨h6, List.pairwise_singleton _ _, ?_⟩
    intro x hx y hy
    rcases List.mem_singleton.mp hy with rfl
    intro hmem
    exact f0 (h9 x hx y hmem)
  · intro x hx
    rcases List.mem_append.mp hx with hx | hx
    · exact h7 x hx
    · rcases List.mem_singleton.mp hx with rfl
      exact h8 x (List.mem_cons_self x rest)
  · intro x hx
    rcases List.mem_append.mp hx with hx | hx
    · exact h8 x (List.mem_cons_of_mem n hx)
    · have hxa : x ∈ adjOf r.rev_graph n := (List.mem_filter.mp hx).1
      exact ((adj_entry_facts hwf.rev_entries n).2 x hxa).1
  · intro x hx y hy
    rcases List.mem_append.mp hx with hx | hx
    · exact List.mem_append_left _ (h9 x hx y hy)
    · rcases List.mem_singleton.mp hx with rfl
      exact List.mem_append_left _ (h2 x (List.mem_cons_self x rest) y hy)

theorem kahn_loop_out (r : DependencyResolver) (hwf : GraphsWf r) :
    ∀ (fuel : Nat) (queue : List QName) (deg : List (QName × Int))
      (result : List QName), KahnInv r queue deg result →
      KahnOut r (kahn_loop r.rev_graph fuel queue deg result) := by
  intro fuel
  induction fuel with
  | zero =>
    intro queue deg result hinv
    exact kahnInv_out r hinv
  | succ f ih =>
    intro queue deg result hinv
    cases queue with
    | nil =>
      rw [kahn_loop]
      exact kahnInv_out r hinv
    | cons n rest =>
      rw [kahn_loop]
      dsimp only []
      rw [kahn_fold_batch (adjOf r.rev_graph n)
        (adj_entry_facts hwf.rev_entries n).1 deg rest]
      exact ih _ _ _ (kahn_step_inv r hwf hinv)

theorem initial_in_degree_facts (r : DependencyResolver)
    (hwf : GraphsWf r) :
    (∀ x d, dictFind? (initial_in_degree r) x = some d →
      d = ((adjOf r.dep_graph x).length : Int)) ∧
    (dkeys (initial_in_degree r)).Nodup ∧
    (∀ x ∈ dkeys (initial_in_degree r), x ∈ dkeys r.tables) := by
  have hbase0 : ∀ x, dictFind?
      (r.dep_graph.map (fun p => (p.1, (p.2.length : Int)))) x =
      (dictFind? r.dep_graph x).map (fun v => (v.length : Int)) :=
    fun x => dictFind?_map_val r.dep_graph (fun v => (v.length : Int)) x
  have hmain : (∀ x d, dictFind? (initial_in_degree r) x = some d →
        d = ((adjOf r.dep_graph x).length : Int)) ∧
      (dkeys (initial_in_degree r)).Nodup ∧
      (∀ x ∈ dkeys (initial_in_degree r), x ∈ dkeys r.tables) ∧
      (∀ x, (dictFind? r.dep_graph x).isSome →
        (dictFind? (initial_in_degree r) x).isSome) := by
    unfold initial_in_degree
    refine foldl_preserve
      (fun d (p : QName × Table) =>
        if (dictFind? d p.1).isSome then d else d ++ [(p.1, 0)])
      (fun acc =>
        (∀ x d, dictFind? acc x = some d →
          d = ((adjOf r.dep_graph x).length : Int)) ∧
        (dkeys acc).Nodup ∧
        (∀ x ∈ dkeys acc, x ∈ dkeys r.tables) ∧
        (∀ x, (dictFind? r.dep_graph x).isSome →
          (dictFind? acc x).isSome))
      r.tables ?_ _ ?_
    · intro acc p hp ⟨ha, hb, hc, hd⟩
      dsimp only []
      by_cases hs : (dictFind? acc p.1).isSome
      · rw [if_pos hs]
        exact ⟨ha, hb, hc, hd⟩
      · rw [if_neg hs]
        refine ⟨?_, ?_, ?_, ?_⟩
        · intro x d hx
          rw [dictFind?_append] at hx
          cases hacc : dictFind? acc x with
          | some w =>
            rw [hacc] at hx
            exact ha x d (hacc.trans (by simpa using hx))
          | none =>
            rw [hacc] at hx
            rw [dictFind?_cons] at hx
            by_cases hpx : p.1 = x
            · rw [if_pos hpx] at hx
              have hdep : dictFind? r.dep_graph x = none := by
                cases hdg : dictFind? r.dep_graph x with
                | none => rfl
                | some v =>
                  exact absurd (hd x (by rw [hdg]; rfl))
                    (by rw [hacc]; simp)
              have : adjOf r.dep_graph x = [] := by
                unfold adjOf
                rw [hdep]
                rfl
              rw [this]
              simpa using hx.symm
            · rw [if_neg hpx] at hx
              exact absurd hx (by simp [dictFind?])
        · unfold dkeys
          rw [List.map_append]
          apply List.Nodup.append hb (List.nodup_singleton _)
          intro x hx hxp
          rcases List.mem_singleton.mp hxp with rfl
          exact hs ((dictFind?_isSome_iff_mem_dkeys acc p.1).mpr hx)
        · intro x hx
          unfold dkeys at hx
          rw [List.map_append] at hx
          rcases List.mem_append.mp hx with hx | hx
          · exact hc x hx
          · rcases List.mem_singleton.mp hx with rfl
            exact List.mem_map_of_mem Prod.fst hp
        · intro x hx
          rw [dictFind?_append]
          cases hacc : dictFind? acc x with
          | some w => simp
          | none =>
            have := hd x hx
            rw [hacc] at this
            exact absurd this (by simp)
    · refine ⟨?_, ?_, ?_, ?_⟩
      · intro x d hx
        rw [hbase0 x] at hx
        cases hdg : dictFind? r.dep_graph x with
        | none => rw [hdg] at hx; exact absurd hx (by simp)
        | some adj =>
          rw [hdg] at hx
          have : d = (adj.length : Int) := by simpa using hx.symm
          rw [this]
          unfold adjOf
          rw [hdg]
          rfl
      · have : dkeys (r.dep_graph.map
            (fun p => (p.1, (p.2.length : Int)))) = dkeys r.dep_graph := by
          unfold dkeys
          rw [List.map_map]
          apply List.map_congr_left
          intro p _
          rfl
        rw [this]
        exact hwf.dep_keys_nodup
      · intro x hx
        have : dkeys (r.dep_graph.map
            (fun p => (p.1, (p.2.length : Int)))) = dkeys r.dep_graph := by
          unfold dkeys
          rw [List.map_map]
          apply List.map_congr_left
          intro p _
          rfl
        rw [this] at hx
        rcases List.mem_map.mp hx with ⟨p, hp, rfl⟩
        exact (hwf.dep_entries p hp).1
      · intro x hx
        rw [hbase0 x]
        cases hdg : dictFind? r.dep_graph x with
        | none => rw [hdg] at hx; exact absurd hx (by simp)
        | some adj => simp
  exact ⟨hmain.1, hmain.2.1, hmain.2.2.1⟩

theorem kahn_emitted_out (r : DependencyResolver) (hwf : GraphsWf r) :
    KahnOut r (kahn_emitted r) := by
  obtain ⟨ha, hb, hc⟩ := initial_in_degree_facts r hwf
  unfold kahn_emitted
  dsimp only []
  apply kahn_loop_out r hwf
  have hqmem : ∀ x ∈ ((initial_in_degree r).filter
      (fun p => p.2 = 0)).map Prod.fst,
      dictFind? (initial_in_degree r) x = some 0 := by
    intro x hx
    rcases List.mem_map.mp hx with ⟨p, hpf, rfl⟩
    have hpm := List.mem_filter.mp hpf
    have hz : p.2 = 0 := by simpa using hpm.2
    have := dictFind?_of_mem_nodup hb hpm.1
    rw [hz] at this
    exact this
  have hadjnil : ∀ x, dictFind? (initial_in_degree r) x = some 0 →
      adjOf r.dep_graph x = [] := by
    intro x hx
    have := ha x 0 hx
    have hlen : (adjOf r.dep_graph x).length = 0 := by omega
    exact List.length_eq_zero.mp hlen
  refine ⟨?_, ?_, List.nodup_nil, ?_, ?_, List.Pairwise.nil, ?_, ?_, ?_⟩
  · intro x d hx
    rw [ha x d hx]
    congr 1
    rw [List.filter_eq_self.mpr]
    intro y _
    simp
  · intro x hx y hy
    rw [hadjnil x (hqmem x hx)] at hy
    exact absurd hy (List.not_mem_nil y)
  · intro x _
    exact List.not_mem_nil x
  · apply List.Nodup.sublist
    · exact List.Sublist.map Prod.fst (List.filter_sublist _)
    · exact hb
  · intro x hx
    exact absurd hx (List.not_mem_nil x)
  · intro x hx
    rcases List.mem_map.mp hx with ⟨p, hpf, rfl⟩
    have hpm := List.mem_filter.mp hpf
    exact hc p.1 (List.mem_map_of_mem Prod.fst hpm.1)
  · intro x hx
    exact absurd hx (List.not_mem_nil x)

theorem pairwise_index_rel {α : Type} [DecidableEq α] {R : α → α → Prop}
    {l : List α} (hp : l.Pairwise R) {a b : α} (ha : a ∈ l) (hb : b ∈ l)
    (hij : l.indexOf a < l.indexOf b) : R a b := by
  have hia := List.indexOf_lt_length.mpr ha
  have hib := List.indexOf_lt_length.mpr hb
  have := List.pairwise_iff_get.mp hp ⟨l.indexOf a, hia⟩
    ⟨l.indexOf b, hib⟩ hij
  rwa [List.indexOf_get, List.indexOf_get] at this

theorem kahn_edge_order (r : DependencyResolver) (hwf : GraphsWf r)
    {a b : QName} (hEdge : b ∈ adjOf r.dep_graph a)
    (ha : a ∈ kahn_emitted r) :
    b ∈ kahn_emitted r ∧
      (kahn_emitted r).indexOf b ≤ (kahn_emitted r).indexOf a := by
  obtain ⟨hnd, hkeys, hpw, hclosed⟩ := kahn_emitted_out r hwf
  have hb := hclosed a ha b hEdge
  refine ⟨hb, ?_⟩
  rcases Nat.lt_trichotomy ((kahn_emitted r).indexOf b)
    ((kahn_emitted r).indexOf a) with h | h | h
  · exact le_of_lt h
  · exact le_of_eq h
  · exact absurd hEdge (pairwise_index_rel hpw ha hb h)

/-- C5, amended: in the list returned by `get_insertion_order` over the
graphs `_build_graph` produces, for every dependency edge `A → B` the
referenced table `B` appears no later than `A` unless **both** tables are
among the leftovers that Kahn's algorithm could not order (the leftover
set includes not only cycle members but every table that transitively
depends on a cycle, and it is appended in arbitrary set-enumeration order);
and the returned list has exactly one entry per known table. -/
theorem insertion_order_topological (tables : List Table)
    (o : List QName → List QName)
    (ho : (o (insertion_remaining (mk_resolver tables))).Perm
      (insertion_remaining (mk_resolver tables))) :
    (∀ a b, b ∈ adjOf (mk_resolver tables).dep_graph a →
      ((a ∉ kahn_emitted (mk_resolver tables) ∧
        b ∉ kahn_emitted (mk_resolver tables)) ∨
       (get_insertion_order (mk_resolver tables) o).indexOf b ≤
        (get_insertion_order (mk_resolver tables) o).indexOf a)) ∧
    (get_insertion_order (mk_resolver tables) o).Perm
      (dkeys (mk_resolver tables).tables) := by
  have hwf := mk_resolver_wf tables
  obtain ⟨hnd, hkeys, hpw, hclosed⟩ :=
    kahn_emitted_out (mk_resolver tables) hwf
  constructor
  · intro a b hEdge
    by_cases ha : a ∈ kahn_emitted (mk_resolver tables)
    · right
      obtain ⟨hb, hle⟩ := kahn_edge_order (mk_resolver tables) hwf hEdge ha
      unfold get_insertion_order
      rw [List.indexOf_append_of_mem hb, List.indexOf_append_of_mem ha]
      exact hle
    · by_cases hb : b ∈ kahn_emitted (mk_resolver tables)
      · right
        unfold get_insertion_order
        rw [List.indexOf_append_of_mem hb,
          List.indexOf_append_of_not_mem ha]
        have hlt := List.indexOf_lt_length.mpr hb
        omega
      · exact Or.inl ⟨ha, hb⟩
  · unfold get_insertion_order
    apply (List.Perm.append_left (kahn_emitted (mk_resolver tables)) ho).trans
    have hK : (kahn_emitted (mk_resolver tables)).Perm
        ((dkeys (mk_resolver tables).tables).filter
          (fun x => decide (x ∈ kahn_emitted (mk_resolver tables)))) := by
      apply (List.perm_ext_iff_of_nodup hnd
        (hwf.tab_keys_nodup.filter _)).mpr
      intro x
      rw [List.mem_filter]
      constructor
      · intro hx
        exact ⟨hkeys x hx, by simpa using hx⟩
      · intro hx
        simpa using hx.2
    have hrem : insertion_remaining (mk_resolver tables) =
        (dkeys (mk_resolver tables).tables).filter
          (fun x => !(decide (x ∈ kahn_emitted (mk_resolver tables)))) := by
      unfold insertion_remaining
      apply List.filter_congr
      intro x _
      simp [List.contains]
    rw [hrem]
    apply List.Perm.trans (List.Perm.append hK (List.Perm.refl _))
    exact List.filter_append_perm _ _

/-- A third table `s.c` referencing `s.a`, which itself lies on the
`s.a`/`s.b` cycle: `s.c` is not on any cycle but can never reach in-degree
zero, so Kahn leaves it over together with the cycle members. -/
def c5_table_c : Table := ⟨"s", "c", [⟨"id"⟩, ⟨"a_id"⟩], ["id"],
  [⟨"fk_ca", "s", "c", ["a_id"], "s", "a", ["id"]⟩]⟩

/-- Resolver over the cycle plus its dependant. -/
def c5_resolver : DependencyResolver :=
  mk_resolver [c6_table_a, c6_table_b, c5_table_c]

/-- C5, counterexample: the graph has the edge `s.c → s.a`, `s.c` shares no
cycle group with `s.a` (the only group is `[s.a, s.b]`), yet under the
reversed set enumeration — a legitimate iteration order of the Python
leftover set — `get_insertion_order` places `s.a` strictly after `s.c`.
The claim's exemption applies only to tables of a common cycle group, so
the claim as stated is false. -/
theorem c5_order_violates_edge :
    "s.a" ∈ adjOf c5_resolver.dep_graph "s.c" ∧
    (get_insertion_order c5_resolver List.reverse).indexOf "s.c" <
      (get_insertion_order c5_resolver List.reverse).indexOf "s.a" ∧
    same_cycle_group c5_resolver "s.c" "s.a" = false ∧
    (List.reverse (insertion_remaining c5_resolver)).Perm
      (insertion_remaining c5_resolver) := by
  refine ⟨by decide, by decide, by decide, by decide⟩

/-- Witness for the amended C5 at the concrete three-table input with the
identity enumeration. -/
theorem insertion_order_topological_w :
    (id (insertion_remaining
      (mk_resolver [c6_table_a, c6_table_b, c5_table_c]))).Perm
      (insertion_remaining
        (mk_resolver [c6_table_a, c6_table_b, c5_table_c])) ∧
    ((∀ a b,
      b ∈ adjOf (mk_resolver [c6_table_a, c6_table_b, c5_table_c]).dep_graph
        a →
      ((a ∉ kahn_emitted (mk_resolver [c6_table_a, c6_table_b, c5_table_c]) ∧
        b ∉ kahn_emitted
          (mk_resolver [c6_table_a, c6_table_b, c5_table_c])) ∨
       (get_insertion_order
         (mk_resolver [c6_table_a, c6_table_b, c5_table_c]) id).indexOf b ≤
        (get_insertion_order
          (mk_resolver [c6_table_a, c6_table_b, c5_table_c]) id).indexOf a))
      ∧
    (get_insertion_order
      (mk_resolver [c6_table_a, c6_table_b, c5_table_c]) id).Perm
      (dkeys (mk_resolver [c6_table_a, c6_table_b, c5_table_c]).tables)) :=
  ⟨by decide,
   insertion_order_topological [c6_table_a, c6_table_b, c5_table_c] id
     (by decide)⟩

/-! ### C3: column exclusion -/

theorem findIdx?_name_of_nodup (cols : List Column)
    (h : (cols.map Column.name).Nodup) (i : Nat) (c : Column)
    (hc : cols.get? i = some c) :
    cols.findIdx? (fun x => x.name = c.name) = some i := by
  obtain ⟨hi, hval⟩ := List.get?_eq_some.mp hc
  rw [List.findIdx?_eq_some_iff_getElem]
  refine ⟨hi, ?_, ?_⟩
  · have : cols[i] = c := by
      rw [← hval]
      simp [List.get_eq_getElem]
    rw [this]
    simp
  · intro j hji
    have hj : j < cols.length := lt_trans hji hi
    have hne : (cols[j]).name ≠ c.name := by
      intro he
      have hji2 : (⟨j, by simpa using hj⟩ : Fin (cols.map Column.name).length) =
          (⟨i, by simpa using hi⟩ : Fin (cols.map Column.name).length) := by
        apply (List.Nodup.get_inj_iff h).mp
        have hgj : (cols.map Column.name).get ⟨j, by simpa using hj⟩ =
            (cols[j]).name := by
          simp [List.get_eq_getElem]
        have hgi : (cols.map Column.name).get ⟨i, by simpa using hi⟩ =
            (cols[i]).name := by
          simp [List.get_eq_getElem]
        rw [hgj, hgi, he]
        have : cols[i] = c := by
          rw [← hval]
          simp [List.get_eq_getElem]
        rw [this]
      have : j = i := congrArg Fin.val hji2
      omega
    simp [hne]

theorem execute_ok_rows (db : SourceDB) (cols : List Column) (q : Query)
    (params : List Int) (rows : List Row)
    (hord : ∀ ob l r, r ∈ db.order_rows ob l → r ∈ l)
    (h : execute db cols q params = Except.ok rows) :
    ∀ row ∈ rows, ∃ src ∈ db.rows (q.from_schema ++ "." ++ q.from_table),
      row = project_row cols q.select_list src := by
  unfold execute at h
  by_cases hnp : num_placeholders q ≠ params.length
  · rw [if_pos hnp] at h
    exact absurd h (by simp)
  · rw [if_neg hnp] at h
    simp only [Except.ok.injEq] at h
    intro row hrow
    rw [← h] at hrow
    rcases List.mem_map.mp hrow with ⟨src, hsrc, rfl⟩
    refine ⟨src, ?_, rfl⟩
    have hord' : src ∈ (match q.order_by with
        | some ob => db.order_rows ob
            (match q.where_sql with
              | some c => (db.rows (q.from_schema ++ "." ++ q.from_table)).filter (db.cond c)
              | none => db.rows (q.from_schema ++ "." ++ q.from_table))
        | none =>
            (match q.where_sql with
              | some c => (db.rows (q.from_schema ++ "." ++ q.from_table)).filter (db.cond c)
              | none => db.rows (q.from_schema ++ "." ++ q.from_table))) := by
      rcases hql : q.limit with _ | lc
      · rw [hql] at hsrc
        exact hsrc
      · rcases lc with _ | n
        · rcases params with _ | ⟨n, ps⟩
          · rw [hql] at hsrc
            exact hsrc
          · rcases ps with _ | ⟨m, ps⟩
            · rw [hql] at hsrc
              exact List.mem_of_mem_take hsrc
            · rw [hql] at hsrc
              exact hsrc
        · rw [hql] at hsrc
          exact List.mem_of_mem_take hsrc
    have hfil : src ∈ (match q.where_sql with
        | some c => (db.rows (q.from_schema ++ "." ++ q.from_table)).filter (db.cond c)
        | none => db.rows (q.from_schema ++ "." ++ q.from_table)) := by
      rcases hqo : q.order_by with _ | ob
      · rw [hqo] at hord'
        exact hord'
      · rw [hqo] at hord'
        exact hord _ _ src hord'
    rcases hqw : q.where_sql with _ | c
    · rw [hqw] at hfil
      exact hfil
    · rw [hqw] at hfil
      exact List.mem_of_mem_filter hfil

/-- C3, amended: the sampling query substitutes the literal NULL for each
excluded column in place: every sampled row has NULL at each excluded
column's ordinal and the source row's value at every other ordinal.  When
every column is excluded the query projects one NULL per column (still
preserving ordinals); a single NULL is projected only when the table has no
columns at all. -/
theorem excluded_columns_positional (e : SamplingEngine) (db : SourceDB)
    (t : Table) (hnd : (t.columns.map Column.name).Nodup)
    (hord : ∀ ob l r, r ∈ db.order_rows ob l → r ∈ l)
    (res : SamplingResult) (h : sample_table e db t = Except.ok res) :
    ∀ row ∈ res.rows, ∃ src ∈ db.rows t.qualified_name,
      row.length = (if t.columns.isEmpty then 1 else t.columns.length) ∧
      (t.columns = [] → row = [none]) ∧
      ∀ i c, t.columns.get? i = some c →
        row.get? i = some
          (if c.name ∈ get_excluded_columns e t then none
           else (src.get? i).getD none) := by
  unfold sample_table at h
  dsimp only [] at h
  cases hex : execute db t.columns
      (build_query e db t (find_limit_rule e t)).1
      (build_query e db t (find_limit_rule e t)).2 with
  | error msg =>
    rw [hex] at h
    exact absurd h (by simp [Except.map])
  | ok rows =>
    rw [hex] at h
    simp only [Except.map, Except.ok.injEq] at h
    have hrows : res.rows = rows := by rw [← h]
    rw [hrows]
    intro row hrow
    have hfrom : (build_query e db t (find_limit_rule e t)).1.from_schema
        = t.schema := rfl
    have hfrom2 : (build_query e db t (find_limit_rule e t)).1.from_table
        = t.name := rfl
    obtain ⟨src, hsrc, rfl⟩ :=
      execute_ok_rows db t.columns _ _ rows hord hex row hrow
    refine ⟨src, by rwa [hfrom, hfrom2] at hsrc, ?_, ?_, ?_⟩
    · have hsel : (build_query e db t (find_limit_rule e t)).1.select_list
          = (if t.columns = [] then [SelectExpr.nullLit]
             else t.columns.map (fun c =>
               if (get_excluded_columns e t).contains c.name then
                 SelectExpr.nullLit
               else SelectExpr.col c.name)) := by
        unfold build_query
        dsimp only []
        by_cases hcols : t.columns = []
        · rw [hcols]
          simp
        · rw [if_neg hcols,
            if_neg (fun hmap => hcols (List.map_eq_nil.mp hmap))]
      rw [hsel]
      by_cases hcols : t.columns = []
      · rw [if_pos hcols]
        simp [project_row, hcols]
      · rw [if_neg hcols]
        have : t.columns.isEmpty = false := by
          simpa [List.isEmpty_iff] using hcols
        simp [project_row, this]
    · intro hcols
      have hsel : (build_query e db t (find_limit_rule e t)).1.select_list
          = [SelectExpr.nullLit] := by
        unfold build_query
        dsimp only []
        rw [hcols]
        simp
      rw [hsel]
      rfl
    · intro i c hc
      have hcols : t.columns ≠ [] := by
        intro hnil
        rw [hnil] at hc
        exact absurd hc (by simp)
      have hsel : (build_query e db t (find_limit_rule e t)).1.select_list
          = t.columns.map (fun c =>
              if (get_excluded_columns e t).contains c.name then
                SelectExpr.nullLit
              else SelectExpr.col c.name) := by
        unfold build_query
        dsimp only []
        rw [if_neg (fun hmap => hcols (List.map_eq_nil.mp hmap))]
      rw [hsel]
      unfold project_row
      rw [List.get?_map, List.get?_map, hc]
      simp only [Option.map_some']
      by_cases hexc : c.name ∈ get_excluded_columns e t
      · rw [if_pos (by simpa using hexc), if_pos hexc]
      · rw [if_neg (by simpa using hexc), if_neg hexc]
        dsimp only []
        rw [findIdx?_name_of_nodup t.columns hnd i c hc]

/-- A two-column table `s.t(id, secret)` with primary key `id`. -/
def c3_table : Table :=
  ⟨"s", "t", [⟨"id"⟩, ⟨"secret"⟩], ["id"], []⟩

/-- Engine over `s.t` excluding `t.secret`, with limit rule `t = 3`. -/
def c3_engine : SamplingEngine :=
  ⟨[("s.t", c3_table)], mk_resolver [c3_table],
   [⟨"t", LimitType.numeric, RuleValue.vint 3⟩],
   false, false, false, ["t.secret"], false⟩

/-- Engine over `s.t` whose exclusion pattern `*` matches every column. -/
def c3_engine_all : SamplingEngine :=
  ⟨[("s.t", c3_table)], mk_resolver [c3_table], [],
   false, false, false, ["*"], false⟩

/-- Source with three rows of `s.t`. -/
def c3_db : SourceDB :=
  ⟨fun qn => if qn = "s.t" then
      [[some 1, some 10], [some 2, some 20], [some 3, some 30]] else [],
   fun _ _ => false, fun _ l => l⟩

/-- The sample of `s.t` under `c3_engine`. -/
def c3_res : SamplingResult :=
  ⟨"s", "t", [[some 1, none], [some 2, none], [some 3, none]], 3,
   some ⟨"t", LimitType.numeric, RuleValue.vint 3⟩⟩

/-- C3 counterexample: when an exclusion glob matches every column of a
table that has columns, `_build_query` emits one `NULL` per column — the
SELECT list for the two-column table is `NULL, NULL`, not the single `NULL`
the claim demands (a single `NULL` appears only when the table has no
columns at all, since excluded columns still push a `NULL` entry). -/
theorem c3_exclude_all_two_nulls :
    get_excluded_columns c3_engine_all c3_table = ["id", "secret"] ∧
    (build_query c3_engine_all c3_db c3_table none).1.select_list
      = [SelectExpr.nullLit, SelectExpr.nullLit] ∧
    (build_query c3_engine_all c3_db c3_table none).1.select_list
      ≠ [SelectExpr.nullLit] :=
  ⟨by decide, by decide, by decide⟩

/-- Witness for the amended C3 theorem: the concrete engine excluding
`t.secret` samples `s.t` to rows that are NULL at the excluded ordinal and
carry the source value elsewhere. -/
theorem excluded_columns_positional_w :
    sample_table c3_engine c3_db c3_table = Except.ok c3_res ∧
    ∀ row ∈ c3_res.rows, ∃ src ∈ c3_db.rows c3_table.qualified_name,
      row.length =
        (if c3_table.columns.isEmpty then 1 else c3_table.columns.length) ∧
      (c3_table.columns = [] → row = [none]) ∧
      ∀ i c, c3_table.columns.get? i = some c →
        row.get? i = some
          (if c.name ∈ get_excluded_columns c3_engine c3_table then none
           else (src.get? i).getD none) :=
  ⟨by decide,
   excluded_columns_positional c3_engine c3_db c3_table (by decide)
     (fun _ _ _ hr => hr) c3_res (by decide)⟩

/-! ### C4: the verifier -/

theorem mem_collect_fk_values (rows : List Row) (idxs : List Nat) (x : Row) :
    x ∈ collect_fk_values rows idxs ↔
      ∃ row ∈ rows, none ∉ proj_at row idxs ∧ proj_at row idxs = x := by
  unfold collect_fk_values
  rw [mem_foldl_skip_add (fun row => proj_at row idxs)
    (fun row => none ∈ proj_at row idxs)]
  simp

theorem verify_fk_eq_some (e : SamplingEngine)
    (results : List (QName × SamplingResult))
    (table_name : QName) (table : Table) (fk : ForeignKey)
    (res : SamplingResult) (hres : dictFind? results table_name = some res)
    (refObj : Table)
    (href : dictFind? e.tables (refQName fk) = some refObj)
    (hpk : refObj.has_primary_key = true)
    (refRes : SamplingResult)
    (hrefres : dictFind? results (refQName fk) = some refRes)
    (hB : ¬ refRes.rows = [])
    (hidx : ¬ indices_matching table.columns fk.columns = [])
    (hridx : ¬ indices_matching refObj.columns fk.referenced_columns = [])
    (hmissing :
      ¬ (collect_fk_values res.rows
          (indices_matching table.columns fk.columns)).filter
        (fun v => decide (v ∉ collect_ref_values refRes.rows
          (indices_matching refObj.columns fk.referenced_columns))) = []) :
    verify_fk e results table_name table fk = some
      ⟨fk.name, table_name, fk.columns, refQName fk, fk.referenced_columns,
       ((collect_fk_values res.rows
           (indices_matching table.columns fk.columns)).filter
         (fun v => decide (v ∉ collect_ref_values refRes.rows
           (indices_matching refObj.columns fk.referenced_columns)))).length,
       ((collect_fk_values res.rows
           (indices_matching table.columns fk.columns)).filter
         (fun v => decide (v ∉ collect_ref_values refRes.rows
           (indices_matching refObj.columns fk.referenced_columns)))).take 10⟩
    := by
  have hfkv : ¬ collect_fk_values res.rows
      (indices_matching table.columns fk.columns) = [] := by
    intro h
    rw [h] at hmissing
    exact hmissing rfl
  unfold verify_fk
  dsimp only []
  rw [href]
  dsimp only []
  rw [if_pos hpk, hrefres]
  dsimp only []
  rw [if_neg hB, if_neg hidx, if_neg hridx, hres]
  simp only [Option.map_some', Option.getD_some]
  rw [if_neg hfkv, if_neg hmissing]

theorem mem_verify_violations (e : SamplingEngine)
    (results : List (QName × SamplingResult))
    (table_name : QName) (table : Table)
    (hmem : (table_name, table) ∈ e.tables)
    (res : SamplingResult) (hres : dictFind? results table_name = some res)
    (hA : ¬ res.rows = [])
    (fk : ForeignKey) (hfk : fk ∈ table.foreign_keys)
    (v : Violation)
    (hv : verify_fk e results table_name table fk = some v) :
    v ∈ (verify_referential_integrity e results).2 := by
  unfold verify_referential_integrity
  dsimp only []
  refine foldl_establish _ (fun _ => True) (fun s => v ∈ s) e.tables
    (table_name, table) hmem (fun _ _ _ _ => trivial) ?_ ?_ [] trivial
  · intro s _
    dsimp only []
    rw [hres]
    dsimp only []
    rw [if_neg hA]
    refine foldl_establish _ (fun _ => True) (fun s => v ∈ s)
      table.foreign_keys fk hfk (fun _ _ _ _ => trivial) ?_ ?_ s trivial
    · intro s _
      dsimp only []
      rw [hv]
      exact List.mem_append_right s (List.mem_singleton.mpr rfl)
    · intro s a _ hP
      dsimp only []
      cases h2 : verify_fk e results table_name table a with
      | none => exact hP
      | some w => exact List.mem_append_left _ hP
  · intro s p _ hP
    dsimp only []
    cases h : dictFind? results p.1 with
    | none => exact hP
    | some r =>
      dsimp only []
      by_cases hr : r.rows = []
      · rw [if_pos hr]
        exact hP
      · rw [if_neg hr]
        refine foldl_preserve _ (fun s => v ∈ s) p.2.foreign_keys ?_ s hP
        intro s a _ hP
        dsimp only []
        cases h2 : verify_fk e results p.1 p.2 a with
        | none => exact hP
        | some w => exact List.mem_append_left _ hP

/-- C4, amended: `verify_referential_integrity` returns `(ok, violations)`
with `ok` true iff the violation list is empty, and — provided the
referenced table's sample is non-empty and both column-index lists resolve —
the non-null FK tuples of A's sample missing from the referenced-column
projections of B's sample are reported in one violation record carrying the
constraint name, tables, column lists, their count and their first 10; a
foreign key whose referenced sample is empty is skipped entirely, so its
missing tuples are NOT reported (divergence from the unconditional claim,
exhibited separately). -/
theorem verify_reports_missing (e : SamplingEngine)
    (results : List (QName × SamplingResult))
    (table_name : QName) (table : Table)
    (hmem : (table_name, table) ∈ e.tables)
    (res : SamplingResult) (hres : dictFind? results table_name = some res)
    (hA : ¬ res.rows = [])
    (fk : ForeignKey) (hfk : fk ∈ table.foreign_keys)
    (refObj : Table)
    (href : dictFind? e.tables (refQName fk) = some refObj)
    (hpk : refObj.has_primary_key = true)
    (refRes : SamplingResult)
    (hrefres : dictFind? results (refQName fk) = some refRes)
    (hB : ¬ refRes.rows = [])
    (hidx : ¬ indices_matching table.columns fk.columns = [])
    (hridx : ¬ indices_matching refObj.columns fk.referenced_columns = [])
    (hmissing :
      ¬ (collect_fk_values res.rows
          (indices_matching table.columns fk.columns)).filter
        (fun v => decide (v ∉ collect_ref_values refRes.rows
          (indices_matching refObj.columns fk.referenced_columns))) = []) :
    (verify_referential_integrity e results).1 =
      (verify_referential_integrity e results).2.isEmpty ∧
    (⟨fk.name, table_name, fk.columns, refQName fk, fk.referenced_columns,
      ((collect_fk_values res.rows
          (indices_matching table.columns fk.columns)).filter
        (fun v => decide (v ∉ collect_ref_values refRes.rows
          (indices_matching refObj.columns fk.referenced_columns)))).length,
      ((collect_fk_values res.rows
          (indices_matching table.columns fk.columns)).filter
        (fun v => decide (v ∉ collect_ref_values refRes.rows
          (indices_matching refObj.columns fk.referenced_columns)))).take 10⟩
      : Violation) ∈ (verify_referential_integrity e results).2 ∧
    ∀ row ∈ res.rows,
      none ∉ proj_at row (indices_matching table.columns fk.columns) →
      proj_at row (indices_matching table.columns fk.columns) ∉
        collect_ref_values refRes.rows
          (indices_matching refObj.columns fk.referenced_columns) →
      proj_at row (indices_matching table.columns fk.columns) ∈
        (collect_fk_values res.rows
            (indices_matching table.columns fk.columns)).filter
          (fun v => decide (v ∉ collect_ref_values refRes.rows
            (indices_matching refObj.columns fk.referenced_columns))) := by
  refine ⟨rfl, ?_, ?_⟩
  · exact mem_verify_violations e results table_name table hmem res hres hA
      fk hfk _
      (verify_fk_eq_some e results table_name table fk res hres refObj href
        hpk refRes hrefres hB hidx hridx hmissing)
  · intro row hrow hnn hnotin
    refine List.mem_filter.mpr ⟨?_, by simpa using hnotin⟩
    exact (mem_collect_fk_values res.rows
      (indices_matching table.columns fk.columns) _).mpr
      ⟨row, hrow, hnn, rfl⟩

/-- Foreign key `s.a(b_id) → s.b(id)`. -/
def c4_fk : ForeignKey :=
  ⟨"fk_ab", "s", "a", ["b_id"], "s", "b", ["id"]⟩

/-- Table `s.a(b_id)` with the foreign key to `s.b`. -/
def c4_table_a : Table :=
  ⟨"s", "a", [⟨"b_id"⟩], ["b_id"], [c4_fk]⟩

/-- Table `s.b(id)` with primary key `id`. -/
def c4_table_b : Table :=
  ⟨"s", "b", [⟨"id"⟩], ["id"], []⟩

/-- Engine over `s.a` and `s.b`. -/
def c4_engine : SamplingEngine :=
  ⟨[("s.a", c4_table_a), ("s.b", c4_table_b)],
   mk_resolver [c4_table_a, c4_table_b],
   [], false, false, false, [], false⟩

/-- Result map where `s.a` holds a non-null FK value 1 and `s.b` holds an
empty sample. -/
def c4_results : List (QName × SamplingResult) :=
  [("s.a", ⟨"s", "a", [[some 1]], 1, none⟩),
   ("s.b", ⟨"s", "b", [], 0, none⟩)]

/-- Result map where `s.b` holds one row whose key 2 does not cover the FK
value 1 of `s.a`. -/
def c4_results_b : List (QName × SamplingResult) :=
  [("s.a", ⟨"s", "a", [[some 1]], 1, none⟩),
   ("s.b", ⟨"s", "b", [[some 2]], 1, none⟩)]

/-- C4 counterexample: the method skips any foreign key whose referenced
table's sample is empty (`not self.results[ref_table].rows: continue`), so
the non-null FK tuple `(1)` of `s.a` — absent from the empty sample of
`s.b`, whose referenced-column projection list is empty — produces no
violation record and the verifier reports `(True, [])`, where the claim
demands a violation for every absent non-null tuple. -/
theorem c4_empty_ref_sample_unreported :
    verify_referential_integrity c4_engine c4_results = (true, []) ∧
    collect_fk_values [[some 1]]
      (indices_matching c4_table_a.columns c4_fk.columns) = [[some 1]] ∧
    collect_ref_values []
      (indices_matching c4_table_b.columns c4_fk.referenced_columns) = [] :=
  ⟨by decide, by decide, by decide⟩

/-- Witness for the amended C4 theorem: with `s.b` sampled non-empty but
missing key 1, the violation record for `fk_ab` is reported. -/
theorem verify_reports_missing_w :
    (verify_referential_integrity c4_engine c4_results_b).1 =
      (verify_referential_integrity c4_engine c4_results_b).2.isEmpty ∧
    (⟨"fk_ab", "s.a", ["b_id"], "s.b", ["id"], 1, [[some 1]]⟩ : Violation)
      ∈ (verify_referential_integrity c4_engine c4_results_b).2 := by
  have h := verify_reports_missing c4_engine c4_results_b "s.a" c4_table_a
    (by decide) ⟨"s", "a", [[some 1]], 1, none⟩ (by decide) (by decide)
    c4_fk (by decide) c4_table_b (by decide) (by decide)
    ⟨"s", "b", [[some 2]], 1, none⟩ (by decide) (by decide) (by decide)
    (by decide) (by decide)
  exact ⟨h.1, h.2.1⟩

/-! ### C9: the row_count invariant -/

theorem foldlM_preserve {σ α : Type} (f : σ → α → Except String σ)
    (P : σ → Prop) :
    ∀ (l : List α),
      (∀ s a, a ∈ l → P s → ∀ s', f s a = Except.ok s' → P s') →
      ∀ s0, P s0 → ∀ s, l.foldlM f s0 = Except.ok s → P s := by
  intro l
  induction l with
  | nil =>
    intro _ s0 h0 s hs
    simp only [List.foldlM_nil] at hs
    cases hs
    exact h0
  | cons a l ih =>
    intro h s0 h0 s hs
    rw [List.foldlM_cons] at hs
    cases hfa : f s0 a with
    | error msg =>
      rw [hfa] at hs
      exact absurd hs (by simp [Bind.bind, Except.bind])
    | ok s1 =>
      rw [hfa] at hs
      simp only [Bind.bind, Except.bind] at hs
      exact ih (fun s b hb => h s b (List.mem_cons_of_mem a hb)) s1
        (h s0 a (List.mem_cons_self a l) h0 s1 hfa) s hs

/-- `CountOk st`: every result entry's `row_count` equals its row list's
length. -/
def CountOk (st : EngineState) : Prop :=
  ∀ p ∈ st.results, p.2.row_count = p.2.rows.length

theorem sample_table_count (e : SamplingEngine) (db : SourceDB) (t : Table)
    (r : SamplingResult) (h : sample_table e db t = Except.ok r) :
    r.row_count = r.rows.length := by
  unfold sample_table at h
  dsimp only [] at h
  cases hex : execute db t.columns
      (build_query e db t (find_limit_rule e t)).1
      (build_query e db t (find_limit_rule e t)).2 with
  | error msg =>
    rw [hex] at h
    exact absurd h (by simp [Except.map])
  | ok rows =>
    rw [hex] at h
    simp only [Except.map, Except.ok.injEq] at h
    rw [← h]

theorem sample_phase_count (e : SamplingEngine) (db : SourceDB)
    (io : List QName) (st : EngineState)
    (h : sample_phase e db io = Except.ok st) : CountOk st := by
  unfold sample_phase at h
  refine foldlM_preserve _ CountOk io ?_ ⟨[], []⟩ ?_ st h
  · intro s a _ hP s' hs'
    dsimp only [] at hs'
    cases hq : dictFind? e.tables a with
    | none =>
      rw [hq] at hs'
      cases hs'
      exact hP
    | some table =>
      rw [hq] at hs'
      dsimp only [] at hs'
      cases hst : sample_table e db table with
      | error msg =>
        rw [hst] at hs'
        exact absurd hs' (by simp [Except.map])
      | ok result =>
        rw [hst] at hs'
        simp only [Except.map, Except.ok.injEq] at hs'
        intro p hp
        rw [← hs'] at hp
        dsimp only [] at hp
        rcases mem_dictInsert hp with rfl | hmem
        · exact sample_table_count e db table result hst
        · exact hP p hmem
  · intro p hp
    exact absurd hp (List.not_mem_nil p)

theorem fetch_missing_rows_count (db : SourceDB) (table : Table)
    (columns : List String) (values : List Row) (st : EngineState)
    (hP : CountOk st) :
    CountOk (fetch_missing_rows db table columns values st) := by
  unfold fetch_missing_rows
  by_cases hv : values = []
  · rw [if_pos hv]
    exact hP
  · rw [if_neg hv]
    dsimp only []
    have hres0 : ∀ q ∈ (if (dictFind? st.results table.qualified_name).isSome
          then st.results
          else dictInsert st.results table.qualified_name
            ⟨table.schema, table.name, [], 0, none⟩),
        q.2.row_count = q.2.rows.length := by
      intro q hq
      by_cases hs : (dictFind? st.results table.qualified_name).isSome
      · rw [if_pos hs] at hq
        exact hP q hq
      · rw [if_neg hs] at hq
        rcases mem_dictInsert hq with rfl | hmem2
        · rfl
        · exact hP q hmem2
    have hcur2 : ((dictFind?
          (if (dictFind? st.results table.qualified_name).isSome
            then st.results
            else dictInsert st.results table.qualified_name
              ⟨table.schema, table.name, [], 0, none⟩)
          table.qualified_name).getD
          ⟨table.schema, table.name, [], 0, none⟩).row_count =
        ((dictFind?
          (if (dictFind? st.results table.qualified_name).isSome
            then st.results
            else dictInsert st.results table.qualified_name
              ⟨table.schema, table.name, [], 0, none⟩)
          table.qualified_name).getD
          ⟨table.schema, table.name, [], 0, none⟩).rows.length := by
      cases hf : dictFind?
          (if (dictFind? st.results table.qualified_name).isSome
            then st.results
            else dictInsert st.results table.qualified_name
              ⟨table.schema, table.name, [], 0, none⟩)
          table.qualified_name with
      | none => rfl
      | some c =>
        simp only [Option.getD_some]
        exact hres0 (table.qualified_name, c) (dictFind?_mem hf)
    intro p hp
    dsimp only [] at hp
    rcases mem_dictInsert hp with rfl | hmem
    · dsimp only []
      simp only [List.length_append]
      rw [hcur2]
    · exact hres0 p hmem

theorem resolve_fk_step_count (e : SamplingEngine) (db : SourceDB)
    (table_name : QName) (table : Table) (fk : ForeignKey)
    (st : EngineState) (hP : CountOk st) :
    CountOk (resolve_fk_step e db table_name table fk st) := by
  unfold resolve_fk_step
  dsimp only []
  cases hq : dictFind? e.tables (refQName fk) with
  | none => exact hP
  | some refObj =>
    dsimp only []
    by_cases hpk : refObj.has_primary_key
    · rw [if_pos hpk]
      by_cases hm : (match dictFind? st.sampled_rows (refQName fk) with
          | some s => (fk_values_of st table_name table fk).filter
              (fun v => decide (v ∉ s))
          | none => fk_values_of st table_name table fk) ≠ []
      · rw [if_pos hm]
        exact fetch_missing_rows_count db refObj fk.referenced_columns _ st hP
      · rw [if_neg hm]
        exact hP
    · rw [if_neg hpk]
      exact hP

theorem resolve_foreign_keys_count (e : SamplingEngine) (db : SourceDB)
    (st : EngineState) (hP : CountOk st) :
    CountOk (resolve_foreign_keys e db st) := by
  unfold resolve_foreign_keys
  refine foldl_preserve (resolve_table_step e db) CountOk e.tables ?_ st hP
  intro s p _ hs
  unfold resolve_table_step
  by_cases hr : (dictFind? s.results p.1).isSome
  · rw [if_pos hr]
    refine foldl_preserve _ CountOk p.2.foreign_keys ?_ s hs
    intro s2 fk _ hs2
    exact resolve_fk_step_count e db p.1 p.2 fk s2 hs2
  · rw [if_neg hr]
    exact hs

theorem sample_with_staging_count (e : SamplingEngine)
    (staging_data : QName → List Row) (io : List QName) :
    ∀ p ∈ sample_with_staging e staging_data io,
      p.2.row_count = p.2.rows.length := by
  unfold sample_with_staging
  refine foldl_preserve _
    (fun (acc : List (QName × SamplingResult)) =>
      ∀ p ∈ acc, p.2.row_count = p.2.rows.length) io ?_ []
    (fun p hp => absurd hp (List.not_mem_nil p))
  intro s a _ hs
  dsimp only []
  cases hq : dictFind? e.tables a with
  | none => exact hs
  | some table =>
    dsimp only []
    intro p hp
    rcases mem_dictInsert hp with rfl | hmem
    · rfl
    · exact hs p hmem

/-- C9: every `SamplingResult` in the map returned by `sample_all` has
`row_count` equal to the length of its row list — established by the initial
per-table sampling and the staging read-back, and preserved by the
foreign-key resolution step that appends fetched rows (it adds the number of
appended rows to the count). -/
theorem row_count_matches (e : SamplingEngine) (db : SourceDB)
    (staging_data : QName → List Row) (set_order : List QName → List QName)
    (results : List (QName × SamplingResult))
    (h : sample_all e db staging_data set_order = Except.ok results) :
    ∀ p ∈ results, p.2.row_count = p.2.rows.length := by
  unfold sample_all at h
  by_cases hstg : e.use_staging
  · rw [if_pos hstg] at h
    cases h
    exact sample_with_staging_count e staging_data _
  · rw [if_neg hstg] at h
    unfold sample_direct at h
    cases hph : sample_phase e db (get_insertion_order e.resolver set_order)
      with
    | error msg =>
      rw [hph] at h
      exact absurd h (by simp [Except.map])
    | ok st =>
      rw [hph] at h
      simp only [Except.map, Except.ok.injEq] at h
      rw [← h]
      exact resolve_foreign_keys_count e db st
        (sample_phase_count e db _ st hph)

/-- Staging-mode engine over `s.a` and `s.b`. -/
def c9_engine : SamplingEngine :=
  ⟨[("s.a", c4_table_a), ("s.b", c4_table_b)],
   mk_resolver [c4_table_a, c4_table_b],
   [], false, false, false, [], true⟩

/-- Empty source (staging mode reads from the staging oracle instead). -/
def c9_db : SourceDB :=
  ⟨fun _ => [], fun _ _ => false, fun _ l => l⟩

/-- Staging read-back: two rows of `s.b`, one of `s.a`. -/
def c9_staging : QName → List Row :=
  fun qn => if qn = "s.b" then [[some 2], [some 3]] else [[some 1]]

/-- The result map `sample_all` returns for the staging engine. -/
def c9_results : List (QName × SamplingResult) :=
  [("s.b", ⟨"s", "b", [[some 2], [some 3]], 2, none⟩),
   ("s.a", ⟨"s", "a", [[some 1]], 1, none⟩)]

/-- Witness for C9: the staging run returns the concrete result map, and
every entry's `row_count` equals its row list's length. -/
theorem row_count_matches_w :
    sample_all c9_engine c9_db c9_staging id = Except.ok c9_results ∧
    ∀ p ∈ c9_results, p.2.row_count = p.2.rows.length :=
  ⟨by decide,
   row_count_matches c9_engine c9_db c9_staging id c9_results (by decide)⟩

/-! ### C1: the closure law -/

/-- Rows of a table in a result map (empty when absent). -/
def rows_in (results : List (QName × SamplingResult)) (qn : QName) :
    List Row :=
  ((dictFind? results qn).map SamplingResult.rows).getD []

theorem mem_map_proj_mono {f : Row → Row} {l l' : List Row}
    (hsub : ∀ r ∈ l, r ∈ l') {v : Row} (hv : v ∈ l.map f) :
    v ∈ l'.map f := by
  rcases List.mem_map.mp hv with ⟨r, hr, rfl⟩
  exact List.mem_map.mpr ⟨r, hsub r hr, rfl⟩

theorem mem_indices_matching (cols : List Column) (names : List String)
    (i : Nat) :
    i ∈ indices_matching cols names ↔
      ∃ c, cols.get? i = some c ∧ names.contains c.name := by
  unfold indices_matching
  rw [List.mem_filter, List.mem_range]
  constructor
  · rintro ⟨hi, hp⟩
    cases hc : cols.get? i with
    | none => rw [hc] at hp; exact absurd hp (by simp)
    | some c =>
      rw [hc] at hp
      exact ⟨c, rfl, hp⟩
  · rintro ⟨c, hc, hn⟩
    have hi : i < cols.length := by
      by_contra hge
      rw [List.get?_eq_none.mpr (Nat.le_of_not_lt hge)] at hc
      cases hc
    refine ⟨hi, ?_⟩
    rw [hc]
    exact hn

theorem proj_by_names_pk (t : Table)
    (hnd : (t.columns.map Column.name).Nodup) (w : Row) :
    proj_by_names t.columns (pk_names_in_order t) w =
      proj_at w (pk_indices t) := by
  unfold proj_by_names pk_names_in_order proj_at
  rw [List.map_map]
  refine List.map_congr_left ?_
  intro i hi
  rcases (mem_indices_matching t.columns t.primary_key i).mp hi with
    ⟨c, hc, _⟩
  simp only [Function.comp]
  simp only [hc]
  rw [findIdx?_name_of_nodup t.columns hnd i c hc]

theorem fk_values_of_eq (st : EngineState) (table_name : QName)
    (table : Table) (fk : ForeignKey) :
    fk_values_of st table_name table fk =
      collect_fk_values (rowsOf st table_name)
        (indices_matching table.columns fk.columns) := rfl

theorem fetch_rows_extend (db : SourceDB) (table : Table)
    (columns : List String) (values : List Row) (st : EngineState)
    (qn : QName) :
    ∃ extra, rowsOf (fetch_missing_rows db table columns values st) qn =
      rowsOf st qn ++ extra := by
  unfold fetch_missing_rows
  by_cases hv : values = []
  · rw [if_pos hv]
    exact ⟨[], (List.append_nil _).symm⟩
  · rw [if_neg hv]
    dsimp only []
    unfold rowsOf
    dsimp only []
    rw [dictFind?_dictInsert]
    by_cases hq : qn = table.qualified_name
    · rw [if_pos hq, hq]
      by_cases hs : (dictFind? st.results table.qualified_name).isSome
      · rw [if_pos hs]
        cases hf : dictFind? st.results table.qualified_name with
        | none => rw [hf] at hs; simp at hs
        | some cur0 => exact ⟨_, rfl⟩
      · rw [if_neg hs]
        cases hf : dictFind? st.results table.qualified_name with
        | some cur0 => rw [hf] at hs; exact absurd rfl hs
        | none =>
          rw [dictFind?_dictInsert, if_pos rfl]
          exact ⟨_, rfl⟩
    · rw [if_neg hq]
      by_cases hs : (dictFind? st.results table.qualified_name).isSome
      · rw [if_pos hs]
        exact ⟨[], (List.append_nil _).symm⟩
      · rw [if_neg hs, dictFind?_dictInsert, if_neg hq]
        exact ⟨[], (List.append_nil _).symm⟩

theorem fetch_mono (db : SourceDB) (table : Table) (columns : List String)
    (values : List Row) (st : EngineState) (qn : QName) :
    ∀ r ∈ rowsOf st qn,
      r ∈ rowsOf (fetch_missing_rows db table columns values st) qn := by
  intro r hr
  rcases fetch_rows_extend db table columns values st qn with ⟨extra, he⟩
  rw [he]
  exact List.mem_append_left extra hr

theorem fetch_isSome (db : SourceDB) (table : Table) (columns : List String)
    (values : List Row) (st : EngineState) (qn : QName)
    (h : (dictFind? st.results qn).isSome) :
    (dictFind?
      (fetch_missing_rows db table columns values st).results qn).isSome
    := by
  unfold fetch_missing_rows
  by_cases hv : values = []
  · rw [if_pos hv]
    exact h
  · rw [if_neg hv]
    dsimp only []
    rw [dictFind?_dictInsert]
    by_cases hq : qn = table.qualified_name
    · rw [if_pos hq]
      rfl
    · rw [if_neg hq]
      by_cases hs : (dictFind? st.results table.qualified_name).isSome
      · rw [if_pos hs]
        exact h
      · rw [if_neg hs, dictFind?_dictInsert, if_neg hq]
        exact h

/-- `PresOk e st`: the presence set of every known primary-keyed table is a
subset of the primary-key projections of its current rows. -/
def PresOk (e : SamplingEngine) (st : EngineState) : Prop :=
  ∀ qn t, dictFind? e.tables qn = some t → t.has_primary_key = true →
    ∀ v ∈ (dictFind? st.sampled_rows qn).getD [],
      v ∈ (rowsOf st qn).map (fun r => proj_at r (pk_indices t))

theorem fetch_presence_ne (db : SourceDB) (table : Table)
    (columns : List String) (values : List Row) (st : EngineState)
    (qn : QName) (hq : qn ≠ table.qualified_name) :
    dictFind?
      (fetch_missing_rows db table columns values st).sampled_rows qn =
      dictFind? st.sampled_rows qn := by
  unfold fetch_missing_rows
  by_cases hv : values = []
  · rw [if_pos hv]
  · rw [if_neg hv]
    dsimp only []
    by_cases hpk : table.has_primary_key = true
    · rw [if_pos hpk, dictFind?_dictInsert, if_neg hq]
    · rw [if_neg hpk]

theorem fetch_presence_self (db : SourceDB) (table : Table)
    (columns : List String) (values : List Row) (st : EngineState)
    (hpk : table.has_primary_key = true) (v : Row)
    (hvmem : v ∈ (dictFind?
      (fetch_missing_rows db table columns values st).sampled_rows
      table.qualified_name).getD []) :
    v ∈ (dictFind? st.sampled_rows table.qualified_name).getD [] ∨
    ∃ row, row ∈ rowsOf (fetch_missing_rows db table columns values st)
        table.qualified_name ∧
      proj_at row (pk_indices table) = v := by
  unfold fetch_missing_rows at hvmem ⊢
  unfold rowsOf
  by_cases hv : values = []
  · rw [if_pos hv] at hvmem
    exact Or.inl hvmem
  · rw [if_neg hv] at hvmem ⊢
    dsimp only [] at hvmem ⊢
    rw [if_pos hpk, dictFind?_dictInsert, if_pos rfl, Option.getD_some]
      at hvmem
    rw [dictFind?_dictInsert, if_pos rfl]
    simp only [Option.map_some', Option.getD_some]
    rcases (mem_foldl_addSet (fun r => proj_at r (pk_indices table)) _ _
      v).mp hvmem with hold | ⟨row, hrow, rfl⟩
    · exact Or.inl hold
    · exact Or.inr ⟨row, List.mem_append_right _ hrow, rfl⟩

theorem fetch_presOk (e : SamplingEngine) (db : SourceDB) (table : Table)
    (columns : List String) (values : List Row) (st : EngineState)
    (htbl : dictFind? e.tables table.qualified_name = some table)
    (hP : PresOk e st) :
    PresOk e (fetch_missing_rows db table columns values st) := by
  intro qn t hqt hpk v hvmem
  by_cases hq : qn = table.qualified_name
  · subst hq
    have ht : t = table := (Option.some.inj (htbl.symm.trans hqt)).symm
    subst ht
    rcases fetch_presence_self db t columns values st hpk v hvmem with
      hold | ⟨row, hrow, rfl⟩
    · exact mem_map_proj_mono
        (fetch_mono db t columns values st t.qualified_name)
        (hP t.qualified_name t hqt hpk v hold)
    · exact List.mem_map.mpr ⟨row, hrow, rfl⟩
  · rw [fetch_presence_ne db table columns values st qn hq] at hvmem
    exact mem_map_proj_mono (fetch_mono db table columns values st qn)
      (hP qn t hqt hpk v hvmem)

theorem dedup_covers (pkf : Row → Row) (l : List Row) (w : Row)
    (hw : w ∈ l) (ex0 : List Row) :
    pkf w ∈ ex0 ∨ pkf w ∈ ((l.foldl
      (fun (acc : List Row × List Row) row =>
        if pkf row ∈ acc.2 then acc
        else (acc.1 ++ [row], acc.2 ++ [pkf row])) ([], ex0)).1).map pkf
    := by
  refine foldl_establish _
    (fun (acc : List Row × List Row) => acc.2 = ex0 ++ acc.1.map pkf)
    (fun (acc : List Row × List Row) =>
      pkf w ∈ ex0 ∨ pkf w ∈ acc.1.map pkf)
    l w hw ?_ ?_ ?_ ([], ex0) (by simp)
  · intro acc row _ hacc
    dsimp only []
    by_cases h2 : pkf row ∈ acc.2
    · rw [if_pos h2]
      exact hacc
    · rw [if_neg h2]
      dsimp only []
      rw [hacc]
      simp [List.append_assoc]
  · intro acc hacc
    dsimp only []
    by_cases h2 : pkf w ∈ acc.2
    · rw [if_pos h2]
      rw [hacc] at h2
      rcases List.mem_append.mp h2 with h | h
      · exact Or.inl h
      · exact Or.inr h
    · rw [if_neg h2]
      right
      dsimp only []
      rw [List.map_append]
      exact List.mem_append_right _ (by simp)
  · intro acc row _ hPacc
    dsimp only []
    by_cases h2 : pkf row ∈ acc.2
    · rw [if_pos h2]
      exact hPacc
    · rw [if_neg h2]
      rcases hPacc with h | h
      · exact Or.inl h
      · right
        dsimp only []
        rw [List.map_append]
        exact List.mem_append_left _ h

theorem fetch_covers (db : SourceDB) (table : Table) (columns : List String)
    (values : List Row) (st : EngineState) (v : Row) (hv : v ∈ values)
    (hpk : table.has_primary_key = true) (w : Row)
    (hw : w ∈ db.rows table.qualified_name)
    (hproj : proj_by_names table.columns columns w = v)
    (halign : proj_by_names table.columns columns w =
      proj_at w (pk_indices table)) :
    v ∈ (rowsOf (fetch_missing_rows db table columns values st)
        table.qualified_name).map
      (fun r => proj_at r (pk_indices table)) := by
  have hvne : values ≠ [] := List.ne_nil_of_mem hv
  have hvw : v = proj_at w (pk_indices table) := hproj.symm.trans halign
  have hw_f : w ∈ (db.rows table.qualified_name).filter
      (fun row =>
        decide (proj_by_names table.columns columns row ∈ values)) :=
    List.mem_filter.mpr ⟨hw, by rw [hproj]; exact decide_eq_true hv⟩
  have key := dedup_covers (fun r => proj_at r (pk_indices table)) _ w hw_f
    (((dictFind?
        (if (dictFind? st.results table.qualified_name).isSome then
          st.results
        else dictInsert st.results table.qualified_name
          ⟨table.schema, table.name, [], 0, none⟩)
        table.qualified_name).getD
        ⟨table.schema, table.name, [], 0, none⟩).rows.map
      (fun r => proj_at r (pk_indices table)))
  unfold fetch_missing_rows rowsOf
  rw [if_neg hvne]
  dsimp only []
  rw [dictFind?_dictInsert, if_pos rfl]
  simp only [Option.map_some', Option.getD_some, hpk, reduceIte]
  rw [List.map_append, hvw]
  rcases key with h | h
  · exact List.mem_append_left _ h
  · exact List.mem_append_right _ h

theorem resolve_fk_step_cases (e : SamplingEngine) (db : SourceDB)
    (table_name : QName) (table : Table) (fk : ForeignKey)
    (st : EngineState) :
    resolve_fk_step e db table_name table fk st = st ∨
    ∃ B missing, dictFind? e.tables (refQName fk) = some B ∧
      B.has_primary_key = true ∧
      resolve_fk_step e db table_name table fk st =
        fetch_missing_rows db B fk.referenced_columns missing st := by
  unfold resolve_fk_step
  dsimp only []
  cases hq : dictFind? e.tables (refQName fk) with
  | none => exact Or.inl rfl
  | some B =>
    dsimp only []
    by_cases hpk : B.has_primary_key = true
    · rw [if_pos hpk]
      by_cases hm : (match dictFind? st.sampled_rows (refQName fk) with
          | some s => (fk_values_of st table_name table fk).filter
              (fun v => decide (v ∉ s))
          | none => fk_values_of st table_name table fk) ≠ []
      · rw [if_pos hm]
        exact Or.inr ⟨B, _, rfl, hpk, rfl⟩
      · rw [if_neg hm]
        exact Or.inl rfl
    · rw [if_neg hpk]
      exact Or.inl rfl

theorem resolve_fk_step_mono (e : SamplingEngine) (db : SourceDB)
    (table_name : QName) (table : Table) (fk : ForeignKey)
    (st : EngineState) (qn : QName) :
    ∀ r ∈ rowsOf st qn,
      r ∈ rowsOf (resolve_fk_step e db table_name table fk st) qn := by
  rcases resolve_fk_step_cases e db table_name table fk st with
    heq | ⟨B, missing, _, _, heq⟩
  · rw [heq]
    exact fun r hr => hr
  · rw [heq]
    exact fetch_mono db B fk.referenced_columns missing st qn

theorem resolve_fk_step_isSome (e : SamplingEngine) (db : SourceDB)
    (table_name : QName) (table : Table) (fk : ForeignKey)
    (st : EngineState) (qn : QName)
    (h : (dictFind? st.results qn).isSome) :
    (dictFind?
      (resolve_fk_step e db table_name table fk st).results qn).isSome := by
  rcases resolve_fk_step_cases e db table_name table fk st with
    heq | ⟨B, missing, _, _, heq⟩
  · rw [heq]
    exact h
  · rw [heq]
    exact fetch_isSome db B fk.referenced_columns missing st qn h

theorem resolve_fk_step_presOk (e : SamplingEngine) (db : SourceDB)
    (table_name : QName) (table : Table) (fk : ForeignKey)
    (st : EngineState)
    (Hqn : ∀ p ∈ e.tables, p.1 = p.2.qualified_name)
    (hP : PresOk e st) :
    PresOk e (resolve_fk_step e db table_name table fk st) := by
  rcases resolve_fk_step_cases e db table_name table fk st with
    heq | ⟨B, missing, hq, _, heq⟩
  · rw [heq]
    exact hP
  · rw [heq]
    have hqn : refQName fk = B.qualified_name := Hqn _ (dictFind?_mem hq)
    exact fetch_presOk e db B fk.referenced_columns missing st
      (hqn ▸ hq) hP

theorem resolve_table_step_mono (e : SamplingEngine) (db : SourceDB)
    (st : EngineState) (p : QName × Table) (qn : QName) :
    ∀ r ∈ rowsOf st qn,
      r ∈ rowsOf (resolve_table_step e db st p) qn := by
  unfold resolve_table_step
  by_cases hs : (dictFind? st.results p.1).isSome
  · rw [if_pos hs]
    intro r hr
    refine foldl_preserve _ (fun s => r ∈ rowsOf s qn) p.2.foreign_keys ?_
      st hr
    intro s fk _ hrs
    exact resolve_fk_step_mono e db p.1 p.2 fk s qn r hrs
  · rw [if_neg hs]
    exact fun r hr => hr

theorem resolve_table_step_isSome (e : SamplingEngine) (db : SourceDB)
    (st : EngineState) (p : QName × Table) (qn : QName)
    (h : (dictFind? st.results qn).isSome) :
    (dictFind? (resolve_table_step e db st p).results qn).isSome := by
  unfold resolve_table_step
  by_cases hs : (dictFind? st.results p.1).isSome
  · rw [if_pos hs]
    refine foldl_preserve _
      (fun s => (dictFind? s.results qn).isSome) p.2.foreign_keys ?_ st h
    intro s fk _ hrs
    exact resolve_fk_step_isSome e db p.1 p.2 fk s qn hrs
  · rw [if_neg hs]
    exact h

theorem resolve_table_step_presOk (e : SamplingEngine) (db : SourceDB)
    (st : EngineState) (p : QName × Table)
    (Hqn : ∀ p ∈ e.tables, p.1 = p.2.qualified_name)
    (hP : PresOk e st) :
    PresOk e (resolve_table_step e db st p) := by
  unfold resolve_table_step
  by_cases hs : (dictFind? st.results p.1).isSome
  · rw [if_pos hs]
    refine foldl_preserve _ (PresOk e) p.2.foreign_keys ?_ st hP
    intro s fk _ hrs
    exact resolve_fk_step_presOk e db p.1 p.2 fk s Hqn hrs
  · rw [if_neg hs]
    exact hP

theorem sample_phase_presOk (e : SamplingEngine) (db : SourceDB)
    (io : List QName) (st : EngineState)
    (h : sample_phase e db io = Except.ok st) : PresOk e st := by
  unfold sample_phase at h
  refine foldlM_preserve _ (PresOk e) io ?_ ⟨[], []⟩ ?_ st h
  · intro s a _ hP s' hs'
    dsimp only [] at hs'
    cases hq : dictFind? e.tables a with
    | none =>
      rw [hq] at hs'
      cases hs'
      exact hP
    | some table =>
      rw [hq] at hs'
      dsimp only [] at hs'
      cases hst : sample_table e db table with
      | error msg =>
        rw [hst] at hs'
        exact absurd hs' (by simp [Except.map])
      | ok result =>
        rw [hst] at hs'
        simp only [Except.map, Except.ok.injEq] at hs'
        intro qn t hqt hpk v hvmem
        rw [← hs'] at hvmem ⊢
        dsimp only [] at hvmem ⊢
        by_cases hqa : qn = a
        · subst hqa
          have ht : t = table := Option.some.inj (hqt.symm.trans hq)
          subst ht
          by_cases hpk2 : t.has_primary_key = true
          · rw [if_pos hpk2, dictFind?_dictInsert, if_pos rfl,
              Option.getD_some] at hvmem
            rcases (mem_foldl_addSet (fun r => proj_at r (pk_indices t))
              _ _ v).mp hvmem with hold | ⟨row, hrow, rfl⟩
            · exact absurd hold (List.not_mem_nil v)
            · refine List.mem_map.mpr ⟨row, ?_, rfl⟩
              unfold rowsOf
              dsimp only []
              rw [dictFind?_dictInsert, if_pos rfl]
              simpa using hrow
          · exact absurd hpk hpk2
        · have hvold : v ∈ (dictFind? s.sampled_rows qn).getD [] := by
            revert hvmem
            by_cases hpk2 : table.has_primary_key = true
            · rw [if_pos hpk2, dictFind?_dictInsert, if_neg hqa]
              exact id
            · rw [if_neg hpk2]
              exact id
          have := hP qn t hqt hpk v hvold
          refine mem_map_proj_mono ?_ this
          intro r hr
          unfold rowsOf at hr ⊢
          dsimp only []
          rw [dictFind?_dictInsert, if_neg hqa]
          exact hr
  · intro qn t _ _ v hv
    exact absurd hv (List.not_mem_nil v)

theorem resolve_fk_step_covers (e : SamplingEngine) (db : SourceDB)
    (an : QName) (A : Table) (fk : ForeignKey) (B : Table)
    (hB : dictFind? e.tables (refQName fk) = some B)
    (hBpk : B.has_primary_key = true)
    (hBqn : B.qualified_name = refQName fk)
    (hBnd : (B.columns.map Column.name).Nodup)
    (halign : fk.referenced_columns = pk_names_in_order B)
    (st1 st : EngineState)
    (hmono : ∀ qn r, r ∈ rowsOf st1 qn → r ∈ rowsOf st qn)
    (hpres : PresOk e st)
    (Hsrc : ∀ r ∈ rowsOf st1 an,
      none ∉ proj_at r (indices_matching A.columns fk.columns) →
      ∃ w ∈ db.rows (refQName fk),
        proj_by_names B.columns fk.referenced_columns w =
          proj_at r (indices_matching A.columns fk.columns)) :
    ∀ r ∈ rowsOf st1 an,
      none ∈ proj_at r (indices_matching A.columns fk.columns) ∨
      proj_at r (indices_matching A.columns fk.columns) ∈
        (rowsOf (resolve_fk_step e db an A fk st) (refQName fk)).map
          (fun w => proj_at w (pk_indices B)) := by
  intro r hr
  by_cases hnull :
    none ∈ proj_at r (indices_matching A.columns fk.columns)
  · exact Or.inl hnull
  right
  have hv : proj_at r (indices_matching A.columns fk.columns) ∈
      fk_values_of st an A fk := by
    rw [fk_values_of_eq]
    exact (mem_collect_fk_values _ _ _).mpr ⟨r, hmono an r hr, hnull, rfl⟩
  obtain ⟨w, hw, hproj⟩ := Hsrc r hr hnull
  have halign_w : proj_by_names B.columns fk.referenced_columns w =
      proj_at w (pk_indices B) := by
    rw [halign]
    exact proj_by_names_pk B hBnd w
  have hwB : w ∈ db.rows B.qualified_name := by
    rw [hBqn]
    exact hw
  unfold resolve_fk_step
  dsimp only []
  rw [hB]
  dsimp only []
  rw [if_pos hBpk]
  cases hs : dictFind? st.sampled_rows (refQName fk) with
  | none =>
    dsimp only []
    rw [if_pos (List.ne_nil_of_mem hv)]
    rw [← hBqn]
    exact fetch_covers db B fk.referenced_columns _ st _ hv hBpk w hwB
      hproj halign_w
  | some pset =>
    dsimp only []
    by_cases hvp :
      proj_at r (indices_matching A.columns fk.columns) ∈ pset
    · have hvm := hpres (refQName fk) B hB hBpk
        (proj_at r (indices_matching A.columns fk.columns))
        (by rw [hs]; exact hvp)
      by_cases hm : (fk_values_of st an A fk).filter
          (fun v => decide (v ∉ pset)) ≠ []
      · rw [if_pos hm]
        exact mem_map_proj_mono
          (fetch_mono db B fk.referenced_columns _ st (refQName fk)) hvm
      · rw [if_neg hm]
        exact hvm
    · have hvmiss : proj_at r (indices_matching A.columns fk.columns) ∈
          (fk_values_of st an A fk).filter
            (fun v => decide (v ∉ pset)) :=
        List.mem_filter.mpr ⟨hv, decide_eq_true hvp⟩
      rw [if_pos (List.ne_nil_of_mem hvmiss)]
      rw [← hBqn]
      exact fetch_covers db B fk.referenced_columns _ st _ hvmiss hBpk w
        hwB hproj halign_w

theorem resolve_table_step_covers (e : SamplingEngine) (db : SourceDB)
    (an : QName) (A : Table) (fk : ForeignKey) (hfk : fk ∈ A.foreign_keys)
    (B : Table) (hB : dictFind? e.tables (refQName fk) = some B)
    (hBpk : B.has_primary_key = true)
    (hBqn : B.qualified_name = refQName fk)
    (hBnd : (B.columns.map Column.name).Nodup)
    (halign : fk.referenced_columns = pk_names_in_order B)
    (Hqn : ∀ p ∈ e.tables, p.1 = p.2.qualified_name)
    (st1 st : EngineState)
    (hmono : ∀ qn r, r ∈ rowsOf st1 qn → r ∈ rowsOf st qn)
    (hpres : PresOk e st)
    (hsome : (dictFind? st.results an).isSome)
    (Hsrc : ∀ r ∈ rowsOf st1 an,
      none ∉ proj_at r (indices_matching A.columns fk.columns) →
      ∃ w ∈ db.rows (refQName fk),
        proj_by_names B.columns fk.referenced_columns w =
          proj_at r (indices_matching A.columns fk.columns)) :
    ∀ r ∈ rowsOf st1 an,
      none ∈ proj_at r (indices_matching A.columns fk.columns) ∨
      proj_at r (indices_matching A.columns fk.columns) ∈
        (rowsOf (resolve_table_step e db st (an, A)) (refQName fk)).map
          (fun w => proj_at w (pk_indices B)) := by
  unfold resolve_table_step
  dsimp only []
  rw [if_pos hsome]
  refine foldl_establish (fun s fk' => resolve_fk_step e db an A fk' s)
    (fun s => (∀ qn r, r ∈ rowsOf st1 qn → r ∈ rowsOf s qn) ∧ PresOk e s)
    (fun s => ∀ r ∈ rowsOf st1 an,
      none ∈ proj_at r (indices_matching A.columns fk.columns) ∨
      proj_at r (indices_matching A.columns fk.columns) ∈
        (rowsOf s (refQName fk)).map (fun w => proj_at w (pk_indices B)))
    A.foreign_keys fk hfk ?_ ?_ ?_ st ⟨hmono, hpres⟩
  · rintro s fk' _ ⟨hm, hp⟩
    exact ⟨fun qn r hr =>
        resolve_fk_step_mono e db an A fk' s qn r (hm qn r hr),
      resolve_fk_step_presOk e db an A fk' s Hqn hp⟩
  · rintro s ⟨hm, hp⟩
    exact resolve_fk_step_covers e db an A fk B hB hBpk hBqn hBnd halign
      st1 s hm hp Hsrc
  · rintro s fk' _ hPs r hr
    rcases hPs r hr with h | h
    · exact Or.inl h
    · exact Or.inr (mem_map_proj_mono
        (fun w hw => resolve_fk_step_mono e db an A fk' s (refQName fk) w hw)
        h)

theorem resolve_covers (e : SamplingEngine) (db : SourceDB)
    (Hqn : ∀ p ∈ e.tables, p.1 = p.2.qualified_name)
    (an : QName) (A : Table) (hmemA : (an, A) ∈ e.tables)
    (fk : ForeignKey) (hfk : fk ∈ A.foreign_keys)
    (B : Table) (hB : dictFind? e.tables (refQName fk) = some B)
    (hBpk : B.has_primary_key = true)
    (hBnd : (B.columns.map Column.name).Nodup)
    (halign : fk.referenced_columns = pk_names_in_order B)
    (st1 : EngineState) (hpres1 : PresOk e st1)
    (hsome1 : (dictFind? st1.results an).isSome)
    (Hsrc : ∀ r ∈ rowsOf st1 an,
      none ∉ proj_at r (indices_matching A.columns fk.columns) →
      ∃ w ∈ db.rows (refQName fk),
        proj_by_names B.columns fk.referenced_columns w =
          proj_at r (indices_matching A.columns fk.columns)) :
    ∀ r ∈ rowsOf st1 an,
      none ∈ proj_at r (indices_matching A.columns fk.columns) ∨
      proj_at r (indices_matching A.columns fk.columns) ∈
        (rowsOf (resolve_foreign_keys e db st1) (refQName fk)).map
          (fun w => proj_at w (pk_indices B)) := by
  have hBqn : B.qualified_name = refQName fk :=
    (Hqn _ (dictFind?_mem hB)).symm
  unfold resolve_foreign_keys
  refine foldl_establish (resolve_table_step e db)
    (fun s => (∀ qn r, r ∈ rowsOf st1 qn → r ∈ rowsOf s qn) ∧ PresOk e s ∧
      (dictFind? s.results an).isSome)
    (fun s => ∀ r ∈ rowsOf st1 an,
      none ∈ proj_at r (indices_matching A.columns fk.columns) ∨
      proj_at r (indices_matching A.columns fk.columns) ∈
        (rowsOf s (refQName fk)).map (fun w => proj_at w (pk_indices B)))
    e.tables (an, A) hmemA ?_ ?_ ?_ st1
    ⟨fun qn r hr => hr, hpres1, hsome1⟩
  · rintro s p _ ⟨hm, hp, hsome⟩
    exact ⟨fun qn r hr => resolve_table_step_mono e db s p qn r (hm qn r hr),
      resolve_table_step_presOk e db s p Hqn hp,
      resolve_table_step_isSome e db s p an hsome⟩
  · rintro s ⟨hm, hp, hsome⟩
    exact resolve_table_step_covers e db an A fk hfk B hB hBpk hBqn hBnd
      halign Hqn st1 s hm hp hsome Hsrc
  · rintro s p _ hPs r hr
    rcases hPs r hr with h | h
    · exact Or.inl h
    · exact Or.inr (mem_map_proj_mono
        (fun w hw => resolve_table_step_mono e db s p (refQName fk) w hw) h)

/-- C1, amended: after `sample_all()` in direct mode, the closure law holds
for the rows of the INITIAL per-table samples: for every initially sampled
row of A and FK A→B (B known, with primary key, FK columns aligned to B's
primary key, and the source able to supply the referenced row), the FK
projection either contains a null or appears among the primary-key
projections of B's final sample.  The single resolution pass does NOT
guarantee this for rows added during the pass itself (no fixpoint
iteration), which the counterexample exhibits. -/
theorem single_pass_initial_closure (e : SamplingEngine) (db : SourceDB)
    (set_order : List QName → List QName)
    (Hqn : ∀ p ∈ e.tables, p.1 = p.2.qualified_name)
    (st1 : EngineState)
    (hph : sample_phase e db (get_insertion_order e.resolver set_order) =
      Except.ok st1)
    (an : QName) (A : Table) (hmemA : (an, A) ∈ e.tables)
    (fk : ForeignKey) (hfk : fk ∈ A.foreign_keys)
    (B : Table) (hB : dictFind? e.tables (refQName fk) = some B)
    (hBpk : B.has_primary_key = true)
    (hBnd : (B.columns.map Column.name).Nodup)
    (halign : fk.referenced_columns = pk_names_in_order B)
    (Hsrc : ∀ r ∈ rowsOf st1 an,
      none ∉ proj_at r (indices_matching A.columns fk.columns) →
      ∃ w ∈ db.rows (refQName fk),
        proj_by_names B.columns fk.referenced_columns w =
          proj_at r (indices_matching A.columns fk.columns))
    (results : List (QName × SamplingResult))
    (h : sample_direct e db set_order = Except.ok results) :
    results = (resolve_foreign_keys e db st1).results ∧
    ∀ r ∈ rowsOf st1 an,
      none ∈ proj_at r (indices_matching A.columns fk.columns) ∨
      proj_at r (indices_matching A.columns fk.columns) ∈
        (rows_in results (refQName fk)).map
          (fun w => proj_at w (pk_indices B)) := by
  have hres : results = (resolve_foreign_keys e db st1).results := by
    unfold sample_direct at h
    rw [hph] at h
    simp only [Except.map, Except.ok.injEq] at h
    exact h.symm
  refine ⟨hres, ?_⟩
  by_cases hsome1 : (dictFind? st1.results an).isSome
  · have hcov := resolve_covers e db Hqn an A hmemA fk hfk B hB hBpk hBnd
      halign st1 (sample_phase_presOk e db _ st1 hph) hsome1 Hsrc
    intro r hr
    rcases hcov r hr with hnull | hmem
    · exact Or.inl hnull
    · right
      rw [hres]
      exact hmem
  · intro r hr
    unfold rowsOf at hr
    cases hf : dictFind? st1.results an with
    | some v => rw [hf] at hsome1; exact absurd rfl hsome1
    | none =>
      rw [hf] at hr
      exact absurd hr (List.not_mem_nil r)

/-- Foreign key `s.a(b_id) → s.b(id)` of the cyclic pair. -/
def c1_fk_ab : ForeignKey :=
  ⟨"fk_ab", "s", "a", ["b_id"], "s", "b", ["id"]⟩

/-- Foreign key `s.b(a_id) → s.a(id)` of the cyclic pair. -/
def c1_fk_ba : ForeignKey :=
  ⟨"fk_ba", "s", "b", ["a_id"], "s", "a", ["id"]⟩

/-- Table `s.a(id, b_id)`, primary key `id`, referencing `s.b`. -/
def c1_table_a : Table :=
  ⟨"s", "a", [⟨"id"⟩, ⟨"b_id"⟩], ["id"], [c1_fk_ab]⟩

/-- Table `s.b(id, a_id)`, primary key `id`, referencing `s.a`. -/
def c1_table_b : Table :=
  ⟨"s", "b", [⟨"id"⟩, ⟨"a_id"⟩], ["id"], [c1_fk_ba]⟩

/-- Engine over the cyclic pair with limit rules `a = 1`, `b = 0`. -/
def c1_engine : SamplingEngine :=
  ⟨[("s.a", c1_table_a), ("s.b", c1_table_b)],
   mk_resolver [c1_table_a, c1_table_b],
   [⟨"a", LimitType.numeric, RuleValue.vint 1⟩,
    ⟨"b", LimitType.numeric, RuleValue.vint 0⟩],
   false, false, false, [], false⟩

/-- Source data for the cycle, referentially consistent on both foreign
keys (`a: (1,1),(2,2)`; `b: (1,2),(2,1)`), so a fixpoint closure exists. -/
def c1_db : SourceDB :=
  ⟨fun qn =>
    if qn = "s.a" then [[some 1, some 1], [some 2, some 2]]
    else if qn = "s.b" then [[some 1, some 2], [some 2, some 1]]
    else [],
   fun _ _ => false, fun _ l => l⟩

/-- What `_sample_direct` returns for the cyclic example. -/
def c1_results : List (QName × SamplingResult) :=
  [("s.a",
    ⟨"s", "a", [[some 1, some 1], [some 2, some 2]], 2,
     some ⟨"a", LimitType.numeric, RuleValue.vint 1⟩⟩),
   ("s.b",
    ⟨"s", "b", [[some 1, some 2]], 1,
     some ⟨"b", LimitType.numeric, RuleValue.vint 0⟩⟩)]

/-- C1 counterexample: on a referentially consistent cyclic source, the
single resolution pass of `_resolve_foreign_keys` leaves the closure law
violated.  Row `(2,2)` is fetched into `s.a` only during `s.b`'s step, after
`s.a`'s foreign key has already been processed, so its reference `b_id = 2`
is never resolved: the final sample of `s.b` holds only key 1 and
`closure_ok` is false, although a fixpoint iteration (which the claim and
the spec mandate for cycles) would have fetched `s.b`'s row 2.  The last two
conjuncts certify that the source itself satisfies both foreign keys, so the
violation is the pass's fault, not the data's. -/
theorem c1_single_pass_not_closed :
    sample_direct c1_engine c1_db id = Except.ok c1_results ∧
    closure_ok c1_engine c1_results = false ∧
    (∀ r ∈ c1_db.rows "s.a",
      proj_at r (indices_matching c1_table_a.columns c1_fk_ab.columns) ∈
        (c1_db.rows "s.b").map
          (fun w => proj_at w (pk_indices c1_table_b))) ∧
    (∀ r ∈ c1_db.rows "s.b",
      proj_at r (indices_matching c1_table_b.columns c1_fk_ba.columns) ∈
        (c1_db.rows "s.a").map
          (fun w => proj_at w (pk_indices c1_table_a))) :=
  ⟨by decide, by decide, by decide, by decide⟩

/-- Foreign key `s.u(o_id) → s.o(id)` of the acyclic witness pair. -/
def c1w_fk : ForeignKey :=
  ⟨"fk_uo", "s", "u", ["o_id"], "s", "o", ["id"]⟩

/-- Table `s.u(o_id)` referencing `s.o`. -/
def c1w_table_u : Table :=
  ⟨"s", "u", [⟨"o_id"⟩], ["o_id"], [c1w_fk]⟩

/-- Table `s.o(id)` with primary key `id`. -/
def c1w_table_o : Table :=
  ⟨"s", "o", [⟨"id"⟩], ["id"], []⟩

/-- Acyclic engine with limit rules `o = 1`, `u = 2`. -/
def c1w_engine : SamplingEngine :=
  ⟨[("s.u", c1w_table_u), ("s.o", c1w_table_o)],
   mk_resolver [c1w_table_u, c1w_table_o],
   [⟨"o", LimitType.numeric, RuleValue.vint 1⟩,
    ⟨"u", LimitType.numeric, RuleValue.vint 2⟩],
   false, false, false, [], false⟩

/-- Source for the witness pair, referentially consistent. -/
def c1w_db : SourceDB :=
  ⟨fun qn =>
    if qn = "s.u" then [[some 1], [some 3]]
    else if qn = "s.o" then [[some 1], [some 3]]
    else [],
   fun _ _ => false, fun _ l => l⟩

/-- Phase-1 state of the witness run: `s.o` sampled to key 1 only, `s.u`
sampled to keys 1 and 3. -/
def c1w_st1 : EngineState :=
  ⟨[("s.o", [[some 1]]), ("s.u", [[some 1], [some 3]])],
   [("s.o",
     ⟨"s", "o", [[some 1]], 1,
      some ⟨"o", LimitType.numeric, RuleValue.vint 1⟩⟩),
    ("s.u",
     ⟨"s", "u", [[some 1], [some 3]], 2,
      some ⟨"u", LimitType.numeric, RuleValue.vint 2⟩⟩)]⟩

/-- Final result map of the witness run: the resolution pass fetched
`s.o`'s row 3 to cover `s.u`'s reference. -/
def c1w_results : List (QName × SamplingResult) :=
  [("s.o",
    ⟨"s", "o", [[some 1], [some 3]], 2,
     some ⟨"o", LimitType.numeric, RuleValue.vint 1⟩⟩),
   ("s.u",
    ⟨"s", "u", [[some 1], [some 3]], 2,
     some ⟨"u", LimitType.numeric, RuleValue.vint 2⟩⟩)]

/-- Witness for the amended C1 theorem on the acyclic pair. -/
theorem single_pass_initial_closure_w :
    sample_phase c1w_engine c1w_db
      (get_insertion_order c1w_engine.resolver id) = Except.ok c1w_st1 ∧
    (c1w_results = (resolve_foreign_keys c1w_engine c1w_db c1w_st1).results ∧
     ∀ r ∈ rowsOf c1w_st1 "s.u",
       none ∈ proj_at r
         (indices_matching c1w_table_u.columns c1w_fk.columns) ∨
       proj_at r (indices_matching c1w_table_u.columns c1w_fk.columns) ∈
         (rows_in c1w_results (refQName c1w_fk)).map
           (fun w => proj_at w (pk_indices c1w_table_o))) :=
  ⟨by decide,
   single_pass_initial_closure c1w_engine c1w_db id (by decide) c1w_st1
     (by decide) "s.u" c1w_table_u (by decide) c1w_fk (by decide)
     c1w_table_o (by decide) (by decide) (by decide) (by decide) (by decide)
     c1w_results (by decide)⟩

end DbSample
